import Mathlib

/-!
Verification of the Akula toolbox Erigon-import pipeline and the Ethash
header-verification module against their natural-language specification.

The development shallowly embeds the relevant Rust code:

* `src/bin/akula-toolbox.rs` — the `convert_table` helper, the
  `ConvertHeaders` / `ConvertHeadersTD` / `ConvertCanonical` stages generated
  by the `convert_stage!` macro, the hand-written `ConvertBodies` stage, the
  `TerminatingStage`, and the convert stages' `unwind` bodies;
* `src/consensus/ethash/mod.rs` — `Ethash::verify_header`;
* `src/models/chainspec.rs` — `Engine::collect_params_for_block`.

Machine integers (`u64`, `TxId`, `BlockNumber`) are modelled as `Nat` with
explicit bounds where overflow matters; byte strings (`Vec<u8>`, MDBX keys
and values) are `List Nat` with each byte below 256; fallible Rust code
returns `Except`; `todo!()` and `std::process::exit` are modelled as
explicit non-`ok` outcomes.  External crates (`rlp`, the MDBX bindings) are
modelled by parameters: the walk of a sorted MDBX table from a seek key is
`dropWhile (key < seek)` over the table's sorted entry list, and the RLP
value codecs are opaque function parameters, since their behaviour is not
part of the claims.
-/

namespace AkulaModel

/-! ## Byte strings and their order

MDBX compares keys as byte strings, lexicographically, a proper prefix
sorting before any of its extensions.  `bytesLt` is that strict order on our
`List Nat` model of byte strings. -/

/-- Strict lexicographic order on byte strings: the order MDBX uses for keys
(a proper prefix sorts before its extensions). -/
def bytesLt : List Nat → List Nat → Bool
  | [], [] => false
  | [], _ :: _ => true
  | _ :: _, [] => false
  | a :: l₁, b :: l₂ => decide (a < b) || (decide (a = b) && bytesLt l₁ l₂)

theorem bytesLt_irrefl (l : List Nat) : bytesLt l l = false := by
  induction l with
  | nil => rfl
  | cons a t ih => simp [bytesLt, ih]

theorem bytesLt_nil_right (l : List Nat) : bytesLt l [] = false := by
  cases l <;> rfl

theorem bytesLt_cons {a b : Nat} {l₁ l₂ : List Nat} :
    bytesLt (a :: l₁) (b :: l₂) = true ↔ a < b ∨ (a = b ∧ bytesLt l₁ l₂ = true) := by
  simp [bytesLt]

theorem bytesLt_trans {l₁ l₂ l₃ : List Nat} (h₁ : bytesLt l₁ l₂ = true)
    (h₂ : bytesLt l₂ l₃ = true) : bytesLt l₁ l₃ = true := by
  induction l₁ generalizing l₂ l₃ with
  | nil =>
    cases l₂ with
    | nil => simp [bytesLt] at h₁
    | cons b t₂ =>
      cases l₃ with
      | nil => simp [bytesLt_nil_right] at h₂
      | cons c t₃ => rfl
  | cons a t₁ ih =>
    cases l₂ with
    | nil => simp [bytesLt_nil_right] at h₁
    | cons b t₂ =>
      cases l₃ with
      | nil => simp [bytesLt_nil_right] at h₂
      | cons c t₃ =>
        rw [bytesLt_cons] at h₁ h₂ ⊢
        rcases h₁ with h₁ | ⟨h₁e, h₁r⟩
        · rcases h₂ with h₂ | ⟨h₂e, h₂r⟩
          · exact Or.inl (by omega)
          · exact Or.inl (by omega)
        · rcases h₂ with h₂ | ⟨h₂e, h₂r⟩
          · exact Or.inl (by omega)
          · exact Or.inr ⟨by omega, ih h₁r h₂r⟩

/-- A list extended on the right never sorts before the original:
`p ++ r` is at or after `p`. -/
theorem bytesLt_append_self (p r : List Nat) : bytesLt (p ++ r) p = false := by
  induction p with
  | nil => exact bytesLt_nil_right r
  | cons a t ih => simp [bytesLt, ih]

/-- Appending arbitrary suffixes preserves a strict comparison that is decided
within the common (equal-length) prefix. -/
theorem bytesLt_append_of_lt {p q : List Nat} (hlen : p.length = q.length)
    (h : bytesLt p q = true) (r s : List Nat) :
    bytesLt (p ++ r) (q ++ s) = true := by
  induction p generalizing q with
  | nil =>
    cases q with
    | nil => simp [bytesLt] at h
    | cons b t => simp at hlen
  | cons a t ih =>
    cases q with
    | nil => simp at hlen
    | cons b t₂ =>
      rw [List.cons_append, List.cons_append, bytesLt_cons]
      rw [bytesLt_cons] at h
      rcases h with h | ⟨he, hr⟩
      · exact Or.inl h
      · exact Or.inr ⟨he, ih (by simpa using hlen) hr⟩

/-! ## Big-endian fixed-width integer codec

`BlockNumber` and `TxId` are `u64` values encoded as 8 big-endian bytes for
MDBX keys (`TableEncode` in `akula::kv`).  `encBE w n` produces the `w`-byte
big-endian encoding of `n`, `decBE` its inverse. -/

/-- Big-endian encoding of `n` on `w` bytes (most significant byte first). -/
def encBE : Nat → Nat → List Nat
  | 0, _ => []
  | w + 1, n => (n / 256 ^ w) % 256 :: encBE w n

/-- Big-endian decoding of a byte string. -/
def decBE : List Nat → Nat
  | [] => 0
  | b :: l => b * 256 ^ l.length + decBE l

theorem length_encBE (w n : Nat) : (encBE w n).length = w := by
  induction w generalizing n with
  | zero => rfl
  | succ w ih => simp [encBE, ih]

theorem encBE_bytes_lt (w n : Nat) : ∀ x ∈ encBE w n, x < 256 := by
  induction w generalizing n with
  | zero => intro x hx; simp [encBE] at hx
  | succ w ih =>
    intro x hx
    simp only [encBE, List.mem_cons] at hx
    rcases hx with h | h
    · subst h; exact Nat.mod_lt _ (by norm_num)
    · exact ih n x h

theorem decBE_encBE (w n : Nat) : decBE (encBE w n) = n % 256 ^ w := by
  induction w generalizing n with
  | zero => simp [encBE, decBE, Nat.mod_one]
  | succ w ih =>
    simp only [encBE, decBE, length_encBE, ih]
    have h : n % (256 ^ w * 256) = n % 256 ^ w + 256 ^ w * (n / 256 ^ w % 256) :=
      Nat.mod_mul
    rw [pow_succ, h]
    ring

theorem decBE_lt (l : List Nat) (hv : ∀ x ∈ l, x < 256) : decBE l < 256 ^ l.length := by
  induction l with
  | nil => simp [decBE]
  | cons a t ih =>
    simp only [decBE, List.length_cons]
    have ha : a < 256 := hv a (by simp)
    have ht : decBE t < 256 ^ t.length := ih (fun x hx => hv x (by simp [hx]))
    calc a * 256 ^ t.length + decBE t < a * 256 ^ t.length + 256 ^ t.length := by omega
    _ = (a + 1) * 256 ^ t.length := by ring
    _ ≤ 256 * 256 ^ t.length := Nat.mul_le_mul_right _ (by omega)
    _ = 256 ^ (t.length + 1) := by ring

/-- On equal-length strings of genuine bytes, the lexicographic order agrees
with the order of the decoded big-endian values. -/
theorem bytesLt_iff_decBE {l₁ l₂ : List Nat} (hlen : l₁.length = l₂.length)
    (h₁ : ∀ x ∈ l₁, x < 256) (h₂ : ∀ x ∈ l₂, x < 256) :
    (bytesLt l₁ l₂ = true ↔ decBE l₁ < decBE l₂) := by
  induction l₁ generalizing l₂ with
  | nil =>
    cases l₂ with
    | nil => simp [bytesLt, decBE]
    | cons b t => simp at hlen
  | cons a t ih =>
    cases l₂ with
    | nil => simp at hlen
    | cons b t₂ =>
      have hlen' : t.length = t₂.length := by simpa using hlen
      have hta : ∀ x ∈ t, x < 256 := fun x hx => h₁ x (by simp [hx])
      have htb : ∀ x ∈ t₂, x < 256 := fun x hx => h₂ x (by simp [hx])
      have hdta : decBE t < 256 ^ t.length := decBE_lt t hta
      have hdtb : decBE t₂ < 256 ^ t₂.length := decBE_lt t₂ htb
      rw [bytesLt_cons]
      simp only [decBE, hlen']
      rcases Nat.lt_trichotomy a b with hab | hab | hab
      · have hr : a * 256 ^ t₂.length + decBE t < b * 256 ^ t₂.length + decBE t₂ := by
          calc a * 256 ^ t₂.length + decBE t < a * 256 ^ t₂.length + 256 ^ t₂.length := by
                rw [hlen'] at hdta; omega
          _ = (a + 1) * 256 ^ t₂.length := by ring
          _ ≤ b * 256 ^ t₂.length := Nat.mul_le_mul_right _ (by omega)
          _ ≤ b * 256 ^ t₂.length + decBE t₂ := by omega
        exact iff_of_true (Or.inl hab) hr
      · subst hab
        rw [Nat.add_lt_add_iff_left]
        constructor
        · rintro (h | ⟨-, h⟩)
          · omega
          · exact (ih hlen' hta htb).mp h
        · intro h
          exact Or.inr ⟨rfl, (ih hlen' hta htb).mpr h⟩
      · have hr : ¬ a * 256 ^ t₂.length + decBE t < b * 256 ^ t₂.length + decBE t₂ := by
          have : b * 256 ^ t₂.length + decBE t₂ < a * 256 ^ t₂.length + decBE t := by
            calc b * 256 ^ t₂.length + decBE t₂ < b * 256 ^ t₂.length + 256 ^ t₂.length := by
                  omega
            _ = (b + 1) * 256 ^ t₂.length := by ring
            _ ≤ a * 256 ^ t₂.length := Nat.mul_le_mul_right _ (by omega)
            _ ≤ a * 256 ^ t₂.length + decBE t := by omega
          omega
        refine iff_of_false ?_ hr
        rintro (h | ⟨h, -⟩) <;> omega

/-- Monotonicity of the big-endian key codec: the order-preservation law of
the encoding contract, for values within the `w`-byte range. -/
theorem encBE_lt_encBE {w a b : Nat} (hab : a < b) (hb : b < 256 ^ w) :
    bytesLt (encBE w a) (encBE w b) = true := by
  rw [bytesLt_iff_decBE (by simp [length_encBE]) (encBE_bytes_lt w a) (encBE_bytes_lt w b)]
  rw [decBE_encBE, decBE_encBE, Nat.mod_eq_of_lt hb, Nat.mod_eq_of_lt (by omega)]
  exact hab

/-- If a key whose 8-byte big-endian prefix encodes `a` is not below the seek
key `encBE 8 b`, then `b ≤ a`: seeking at `encBE 8 b` filters the block-number
component. -/
theorem seek_le_of_not_bytesLt {a b : Nat} {rest : List Nat}
    (hb : b < 256 ^ 8)
    (h : bytesLt (encBE 8 a ++ rest) (encBE 8 b) = false) : b ≤ a := by
  by_contra hlt
  push_neg at hlt
  have hmono : bytesLt (encBE 8 a) (encBE 8 b) = true := encBE_lt_encBE hlt hb
  have happ := bytesLt_append_of_lt (by simp [length_encBE]) hmono rest []
  rw [List.append_nil] at happ
  rw [happ] at h
  exact Bool.true_eq_false.mp h

/-! ## KV model: entries, append cursors, walks, stage interface -/

/-- Error kinds that surface in the conversion pipeline (spec §7 taxonomy):
`malformedEntry` for a failed decode, `outOfOrderAppend` for a violated
append precondition. -/
inductive ConvErr
  | malformedEntry
  | outOfOrderAppend
  deriving DecidableEq

/-- An entry of an erased table: raw key and value byte strings, as the
`ErasedTable` cursors of `convert_table` and `ConvertBodies::execute` see
them. -/
abbrev EntryB := List Nat × List Nat

def isOkE {ε α : Type} : Except ε α → Bool
  | .ok _ => true
  | .error _ => false

/-- The append cursor of one target table.  `append` requires the new key to
be strictly greater than the current last key of the table (MDBX
`MDBX_APPEND` semantics), failing with `OutOfOrderAppend` otherwise. -/
structure MutCursor where
  entries : List EntryB
  deriving DecidableEq

def MutCursor.lastKey (c : MutCursor) : Option (List Nat) :=
  c.entries.getLast?.map Prod.fst

def MutCursor.append (c : MutCursor) (kv : EntryB) : Except ConvErr MutCursor :=
  match c.lastKey with
  | none => .ok ⟨c.entries ++ [kv]⟩
  | some lk => if bytesLt lk kv.1 then .ok ⟨c.entries ++ [kv]⟩ else .error .outOfOrderAppend

/-- Model of `cursor.walk(Some(seek))` on a sorted source table: position at the first
entry whose key is at or after `seek` and yield the rest of the table in
order. -/
def walkFrom (src : List EntryB) (seek : List Nat) : List EntryB :=
  src.dropWhile (fun e => bytesLt e.1 seek)

/-- Model of `akula::stagedsync::stage::StageInput`: the previous stage's id and
progress, and this stage's own recorded progress. -/
structure StageInput where
  previousStage : Option (String × Nat)
  stageProgress : Option Nat
  deriving DecidableEq

/-- Model of `akula::stagedsync::stage::UnwindInput`: this stage's progress and the
target height to unwind to. -/
structure UnwindInput where
  stageProgress : Nat
  unwindTo : Nat
  deriving DecidableEq

/-- Model of `akula::stagedsync::stage::ExecOutput`. -/
inductive ExecOutput
  | progress (stageProgress : Nat) (done : Bool) (mustCommit : Bool)
  | unwind (unwindTo : Nat)
  deriving DecidableEq

/-! ## `convert_table` (src/bin/akula-toolbox.rs lines 139–211)

The generic conversion driver behind `ConvertHeaders`, `ConvertHeadersTD`
and `ConvertCanonical`.  Its per-table parameters (`ErasedTable::decode_key`,
`key_to_block_num`, `value_decoder`, `value_encoder`) are bundled in a
`TableCodec`. -/

/-- The per-table conversion functions passed to `convert_table`. -/
structure TableCodec (K W : Type) where
  decodeKey : List Nat → Except ConvErr K
  keyToBlockNum : K → Option Nat
  valueDecoder : List Nat → Except ConvErr W
  valueEncoder : W → List Nat

/-- The inner `while let` extraction loop of `convert_table`: push walked
entries, incrementing the running counter `i`, and stop as soon as `i` hits a
multiple of 500 000 (the `BUFFERING_FACTOR`).  Returns the batch, the rest of
the walk, and the updated counter. -/
def extractBatch : List EntryB → Nat → List EntryB × List EntryB × Nat
  | [], i => ([], [], i)
  | e :: rest, i =>
    if (i + 1) % 500000 = 0 then ([e], rest, i + 1)
    else
      let r := extractBatch rest (i + 1)
      (e :: r.1, r.2.1, r.2.2)

/-- The body of the `into_par_iter().map(...)` step of `convert_table`:
decode the key, project its block number, decode and re-encode the value.
The key bytes passed through to the append are the original ones. -/
def convertEntry {K W : Type} (tc : TableCodec K W) (e : EntryB) :
    Except ConvErr (Option Nat × List Nat × List Nat) :=
  match tc.decodeKey e.1 with
  | .error er => .error er
  | .ok key =>
    match tc.valueDecoder e.2 with
    | .error er => .error er
    | .ok v => .ok (tc.keyToBlockNum key, e.1, tc.valueEncoder v)

/-- The drain `for` loop of `convert_table`: in input order, propagate any
conversion error, record the decoded block number as the new
`highest_block`, and `append` to the target cursor. -/
def drainConverted : List (Except ConvErr (Option Nat × List Nat × List Nat)) →
    Option Nat → MutCursor → Except ConvErr (Option Nat × MutCursor)
  | [], hb, cur => .ok (hb, cur)
  | r :: rest, hb, cur =>
    match r with
    | .error e => .error e
    | .ok (bn, k, v) =>
      let hb' := match bn with | some b => some b | none => hb
      match cur.append (k, v) with
      | .error e => .error e
      | .ok cur' => drainConverted rest hb' cur'

/-- The extraction loop consumes exactly `500000 - i % 500000` entries: the
batch is that prefix of the walk and the rest is the corresponding suffix. -/
theorem extractBatch_take_drop (w : List EntryB) : ∀ i : Nat,
    (extractBatch w i).1 = w.take (500000 - i % 500000) ∧
    (extractBatch w i).2.1 = w.drop (500000 - i % 500000) := by
  induction w with
  | nil => intro i; simp [extractBatch]
  | cons e rest ih =>
    intro i
    by_cases h : (i + 1) % 500000 = 0
    · have hk : i % 500000 = 499999 := by omega
      simp [extractBatch, h, hk]
    · have hk : (i + 1) % 500000 = i % 500000 + 1 := by omega
      have hklt : i % 500000 < 499999 := by omega
      have hc : 500000 - i % 500000 = (500000 - (i + 1) % 500000) + 1 := by omega
      rw [hc]
      simp only [extractBatch, if_neg h, List.take_succ_cons, List.drop_succ_cons]
      exact ⟨by rw [(ih (i + 1)).1], by rw [(ih (i + 1)).2]⟩

theorem extractBatch_rest_length {w : List EntryB} {i : Nat}
    (h : (extractBatch w i).1 ≠ []) :
    (extractBatch w i).2.1.length < w.length := by
  have hc := extractBatch_take_drop w i
  have hwne : w ≠ [] := by
    intro hw
    rw [hc.1, hw] at h
    simp at h
  have hcne : 500000 - i % 500000 ≠ 0 := by
    intro h0
    rw [hc.1, h0] at h
    simp at h
  rw [hc.2, List.length_drop]
  have : 0 < w.length := List.length_pos.mpr hwne
  omega

/-- The outer `loop` of `convert_table`: extract a batch, stop when it is
empty, convert it (an order-preserving parallel map), then drain it into the
target cursor, threading `highest_block` and the extraction counter. -/
def convertLoop {K W : Type} (tc : TableCodec K W) (walker : List EntryB) (i : Nat)
    (hb : Option Nat) (cur : MutCursor) : Except ConvErr (Option Nat × MutCursor) :=
  if hbatch : (extractBatch walker i).1 = [] then .ok (hb, cur)
  else
    match drainConverted ((extractBatch walker i).1.map (convertEntry tc)) hb cur with
    | .error e => .error e
    | .ok p => convertLoop tc (extractBatch walker i).2.1 (extractBatch walker i).2.2 p.1 p.2
termination_by walker.length
decreasing_by
  exact extractBatch_rest_length hbatch

/-- The walk of the source table performed by `convert_table`: it starts at
the seek key `TableEncode::encode(progress + 1)`, with `progress` defaulting
to block 0. -/
def convertTableWalker (src : List EntryB) (input : StageInput) : List EntryB :=
  walkFrom src (encBE 8 (input.stageProgress.getD 0 + 1))

/-- The tail of `convert_table` after its loop: propagate an error, or build
the final `ExecOutput::Progress` with `stage_progress` equal to
`highest_block` (falling back to the previous stage's progress, then to
block 0), `done = true` and `must_commit = true`. -/
def convertTableFinish (input : StageInput) :
    Except ConvErr (Option Nat × MutCursor) → Except ConvErr (ExecOutput × MutCursor)
  | .error e => .error e
  | .ok q =>
    .ok (.progress (q.1.getD ((input.previousStage.map Prod.snd).getD 0)) true true, q.2)

/-- Function `convert_table` itself.  `src` is the (sorted) erased source table,
`cur` the target append cursor.  The `clock` argument models the ambient
wall clock in milliseconds elapsed since the call started, sampled at the
end of each drained batch; `convert_table` contains no `Instant::now()`
call, so the body never consults it — it is threaded only so that
timing-sensitive properties can be stated uniformly with
`ConvertBodies::execute`. -/
def convertTable {K W : Type} (tc : TableCodec K W) (src : List EntryB)
    (input : StageInput) (cur : MutCursor) (_clock : Nat → Nat) :
    Except ConvErr (ExecOutput × MutCursor) :=
  convertTableFinish input (convertLoop tc (convertTableWalker src input) 0 input.stageProgress cur)

/-! ### Properties of `convert_table` -/

theorem isOkE_iff {ε α : Type} {x : Except ε α} : isOkE x = true ↔ ∃ a, x = .ok a := by
  cases x <;> simp [isOkE]

theorem convertEntry_eq_ok {K W : Type} {tc : TableCodec K W} {e : EntryB}
    {o : Option Nat × List Nat × List Nat} (h : convertEntry tc e = .ok o) :
    ∃ key v, tc.decodeKey e.1 = .ok key ∧ tc.valueDecoder e.2 = .ok v ∧
      o = (tc.keyToBlockNum key, e.1, tc.valueEncoder v) := by
  unfold convertEntry at h
  cases hk : tc.decodeKey e.1 with
  | error er => rw [hk] at h; simp at h
  | ok key =>
    cases hv : tc.valueDecoder e.2 with
    | error er => rw [hk, hv] at h; simp at h
    | ok v =>
      rw [hk, hv] at h
      simp only [Except.ok.injEq] at h
      exact ⟨key, v, rfl, rfl, h.symm⟩

/-- All listed keys lie strictly above the cursor's current last key
(vacuously true for a fresh cursor). -/
def belowAll (lk : Option (List Nat)) (ks : List (List Nat)) : Bool :=
  match lk with
  | none => true
  | some k => ks.all (fun q => bytesLt k q)

theorem belowAll_of_subset {lk : Option (List Nat)} {ks ks' : List (List Nat)}
    (hsub : ks' ⊆ ks) (h : belowAll lk ks = true) : belowAll lk ks' = true := by
  cases lk with
  | none => rfl
  | some k =>
    simp only [belowAll, List.all_eq_true] at h ⊢
    exact fun q hq => h q (hsub hq)

theorem lastKey_append {cur : MutCursor} {tail : List EntryB} {x : EntryB}
    (h : tail.getLast? = some x) :
    (MutCursor.mk (cur.entries ++ tail)).lastKey = some x.1 := by
  simp [MutCursor.lastKey, List.getLast?_append, h]

/-- Draining a batch of successfully converted, strictly increasing entries,
all above the cursor's last key, succeeds and appends exactly those entries in
source order. -/
theorem drainConverted_ok {K W : Type} (tc : TableCodec K W) :
    ∀ (rs : List EntryB) (hb : Option Nat) (cur : MutCursor),
    (∀ e ∈ rs, isOkE (convertEntry tc e) = true) →
    rs.Pairwise (fun a b => bytesLt a.1 b.1 = true) →
    belowAll cur.lastKey (rs.map Prod.fst) = true →
    ∃ hb' tail, drainConverted (rs.map (convertEntry tc)) hb cur =
        .ok (hb', ⟨cur.entries ++ tail⟩) ∧
      tail.map Prod.fst = rs.map Prod.fst := by
  intro rs
  induction rs with
  | nil =>
    intro hb cur _ _ _
    exact ⟨hb, [], by simp [drainConverted], by simp⟩
  | cons e rs' ih =>
    intro hb cur hok hpw hbelow
    obtain ⟨o, ho⟩ := isOkE_iff.mp (hok e (by simp))
    obtain ⟨key, v, hk, hv, hoeq⟩ := convertEntry_eq_ok ho
    subst hoeq
    have happ : cur.append (e.1, tc.valueEncoder v) = .ok ⟨cur.entries ++ [(e.1, tc.valueEncoder v)]⟩ := by
      unfold MutCursor.append
      cases hlk : cur.lastKey with
      | none => rfl
      | some lk =>
        have hkb : bytesLt lk e.1 = true := by
          simp only [belowAll, hlk, List.map_cons, List.all_eq_true] at hbelow
          exact hbelow e.1 (by simp)
        simp [hkb]
    have hlk' : (MutCursor.mk (cur.entries ++ [(e.1, tc.valueEncoder v)])).lastKey
        = some e.1 := by
      simp [MutCursor.lastKey, List.getLast?_append]
    have hbelow' :
        belowAll (MutCursor.mk (cur.entries ++ [(e.1, tc.valueEncoder v)])).lastKey
          (rs'.map Prod.fst) = true := by
      rw [hlk']
      simp only [belowAll, List.all_eq_true]
      intro q hq
      obtain ⟨a, ha, rfl⟩ := List.mem_map.mp hq
      exact (List.pairwise_cons.mp hpw).1 a ha
    obtain ⟨hb', tail', hdrain, hkeys⟩ :=
      ih (match tc.keyToBlockNum key with | some b => some b | none => hb)
        ⟨cur.entries ++ [(e.1, tc.valueEncoder v)]⟩
        (fun x hx => hok x (by simp [hx]))
        (List.pairwise_cons.mp hpw).2 hbelow'
    refine ⟨hb', (e.1, tc.valueEncoder v) :: tail', ?_, by simp [hkeys]⟩
    simp only [List.map_cons, drainConverted, ho, happ]
    rw [hdrain]
    simp [List.append_assoc]

/-- Any successful drain leaves `highest_block` either untouched or equal to
the block number decoded from one of the drained results. -/
theorem drainConverted_highest :
    ∀ (rs : List (Except ConvErr (Option Nat × List Nat × List Nat))) (hb : Option Nat)
      (cur : MutCursor) (hb' : Option Nat) (cur' : MutCursor),
    drainConverted rs hb cur = .ok (hb', cur') →
    hb' = hb ∨ ∃ r ∈ rs, ∃ bn k v, r = .ok (some bn, k, v) ∧ hb' = some bn := by
  intro rs
  induction rs with
  | nil =>
    intro hb cur hb' cur' h
    simp only [drainConverted, Except.ok.injEq, Prod.mk.injEq] at h
    exact Or.inl h.1.symm
  | cons r rest ih =>
    intro hb cur hb' cur' h
    cases r with
    | error er => simp [drainConverted] at h
    | ok t =>
      obtain ⟨bn, k, v⟩ := t
      simp only [drainConverted] at h
      cases happ : cur.append (k, v) with
      | error er => rw [happ] at h; simp at h
      | ok cur₁ =>
        rw [happ] at h
        rcases ih _ _ _ _ h with h1 | ⟨r', hr', bn', k', v', hr'eq, hhb⟩
        · cases hbn : bn with
          | none => rw [hbn] at h1; exact Or.inl h1
          | some b =>
            rw [hbn] at h1
            exact Or.inr ⟨.ok (some b, k, v), by simp, b, k, v, rfl, h1⟩
        · exact Or.inr ⟨r', by simp [hr'], bn', k', v', hr'eq, hhb⟩

/-- The `convert_table` loop, on a walk of successfully converting, strictly
increasing entries all above the target cursor's last key, succeeds and
appends exactly the walked entries, in source order. -/
theorem convertLoop_ok {K W : Type} (tc : TableCodec K W) :
    ∀ (n : Nat) (walker : List EntryB), walker.length = n →
    ∀ (i : Nat) (hb : Option Nat) (cur : MutCursor),
    (∀ e ∈ walker, isOkE (convertEntry tc e) = true) →
    walker.Pairwise (fun a b => bytesLt a.1 b.1 = true) →
    belowAll cur.lastKey (walker.map Prod.fst) = true →
    ∃ hb' tail, convertLoop tc walker i hb cur = .ok (hb', ⟨cur.entries ++ tail⟩) ∧
      tail.map Prod.fst = walker.map Prod.fst := by
  intro n
  induction n using Nat.strong_induction_on with
  | _ n ih =>
    intro walker hlen i hb cur hok hpw hbelow
    have hchar := extractBatch_take_drop walker i
    have hcpos : 0 < 500000 - i % 500000 := by omega
    rw [convertLoop]
    by_cases hbatch : (extractBatch walker i).1 = []
    · rw [dif_pos hbatch]
      have hwnil : walker = [] := by
        rw [hchar.1] at hbatch
        rcases List.take_eq_nil_iff.mp hbatch with h | h
        · omega
        · exact h
      subst hwnil
      exact ⟨hb, [], by cases cur; simp, by simp⟩
    · rw [dif_neg hbatch]
      have hwne : walker ≠ [] := by
        intro hw
        rw [hchar.1, hw] at hbatch
        simp at hbatch
      obtain ⟨hb₁, tail₁, hdrain, hkeys₁⟩ :=
        drainConverted_ok tc (extractBatch walker i).1 hb cur
          (fun e he => hok e (by rw [hchar.1] at he; exact List.take_subset _ _ he))
          (by rw [hchar.1]; exact List.Pairwise.sublist (List.take_sublist _ _) hpw)
          (belowAll_of_subset
            (by rw [hchar.1, List.map_take]; exact List.take_subset _ _)
            hbelow)
      rw [hdrain]
      have htail₁ne : tail₁ ≠ [] := by
        intro ht
        rw [ht] at hkeys₁
        have h0 := congrArg List.length hkeys₁
        simp only [List.map_nil, List.length_nil, List.length_map] at h0
        exact hbatch (List.eq_nil_of_length_eq_zero h0.symm)
      obtain ⟨x, hx⟩ := Option.isSome_iff_exists.mp (List.getLast?_isSome.mpr htail₁ne)
      have hlk₁ : (MutCursor.mk (cur.entries ++ tail₁)).lastKey = some x.1 :=
        lastKey_append hx
      have hxmem : x.1 ∈ (extractBatch walker i).1.map Prod.fst := by
        rw [← hkeys₁]
        exact List.mem_map_of_mem _ (List.mem_of_mem_getLast? hx)
      obtain ⟨a, ha, haeq⟩ := List.mem_map.mp hxmem
      have hsplit : walker = (extractBatch walker i).1 ++ (extractBatch walker i).2.1 := by
        rw [hchar.1, hchar.2, List.take_append_drop]
      have hrel : ∀ b ∈ (extractBatch walker i).2.1, bytesLt x.1 b.1 = true := by
        intro b hbmem
        rw [← haeq]
        exact ((List.pairwise_append.mp (hsplit ▸ hpw)).2.2) a ha b hbmem
      have hbelow₂ :
          belowAll (MutCursor.mk (cur.entries ++ tail₁)).lastKey
            ((extractBatch walker i).2.1.map Prod.fst) = true := by
        rw [hlk₁]
        simp only [belowAll, List.all_eq_true]
        intro q hq
        obtain ⟨b, hbmem, rfl⟩ := List.mem_map.mp hq
        exact hrel b hbmem
      have hlt : (extractBatch walker i).2.1.length < n := by
        rw [← hlen]
        exact extractBatch_rest_length hbatch
      obtain ⟨hb₂, tail₂, hloop, hkeys₂⟩ :=
        ih (extractBatch walker i).2.1.length hlt (extractBatch walker i).2.1 rfl
          (extractBatch walker i).2.2 hb₁ ⟨cur.entries ++ tail₁⟩
          (fun e he => hok e (by rw [hchar.2] at he; exact List.drop_subset _ _ he))
          (by rw [hchar.2]; exact List.Pairwise.sublist (List.drop_sublist _ _) hpw)
          hbelow₂
      refine ⟨hb₂, tail₁ ++ tail₂, ?_, ?_⟩
      · show convertLoop tc (extractBatch walker i).2.1 (extractBatch walker i).2.2 hb₁
            ⟨cur.entries ++ tail₁⟩ =
          Except.ok (hb₂, MutCursor.mk (cur.entries ++ (tail₁ ++ tail₂)))
        rw [hloop]
        simp [List.append_assoc]
      · rw [List.map_append, hkeys₁, hkeys₂]
        conv_rhs => rw [hsplit]
        rw [List.map_append]

/-- A successful `convert_table` loop leaves `highest_block` either at its
initial value or at the block number decoded from some walked entry. -/
theorem convertLoop_highest {K W : Type} (tc : TableCodec K W) :
    ∀ (n : Nat) (walker : List EntryB), walker.length = n →
    ∀ (i : Nat) (hb : Option Nat) (cur : MutCursor) (hb' : Option Nat) (cur' : MutCursor),
    convertLoop tc walker i hb cur = .ok (hb', cur') →
    hb' = hb ∨ ∃ e ∈ walker, ∃ key, tc.decodeKey e.1 = .ok key ∧
      ∃ b, tc.keyToBlockNum key = some b ∧ hb' = some b := by
  intro n
  induction n using Nat.strong_induction_on with
  | _ n ih =>
    intro walker hlen i hb cur hb' cur' h
    have hchar := extractBatch_take_drop walker i
    rw [convertLoop] at h
    by_cases hbatch : (extractBatch walker i).1 = []
    · rw [dif_pos hbatch] at h
      simp only [Except.ok.injEq, Prod.mk.injEq] at h
      exact Or.inl h.1.symm
    · rw [dif_neg hbatch] at h
      cases hdr : drainConverted ((extractBatch walker i).1.map (convertEntry tc)) hb cur with
      | error er => rw [hdr] at h; simp at h
      | ok p =>
        rw [hdr] at h
        have hlt : (extractBatch walker i).2.1.length < n := by
          rw [← hlen]
          exact extractBatch_rest_length hbatch
        rcases ih (extractBatch walker i).2.1.length hlt (extractBatch walker i).2.1 rfl
            (extractBatch walker i).2.2 p.1 p.2 hb' cur' h with hh | ⟨e, he, key, hkey, b, hbn, hhb⟩
        · rcases drainConverted_highest _ hb cur p.1 p.2 (by rw [hdr]) with h1 | ⟨r, hr, bn, k, v, hreq, hp1⟩
          · exact Or.inl (hh.trans h1)
          · obtain ⟨e, he, heq⟩ := List.mem_map.mp hr
            obtain ⟨key, v', hk, hv, hoeq⟩ := convertEntry_eq_ok (heq.trans hreq)
            have hbn : tc.keyToBlockNum key = some bn := by
              have := hoeq
              rw [Prod.mk.injEq] at this
              exact this.1.symm
            refine Or.inr ⟨e, ?_, key, hk, bn, hbn, hh.trans hp1⟩
            rw [hchar.1] at he
            exact List.take_subset _ _ he
        · refine Or.inr ⟨e, ?_, key, hkey, b, hbn, hhb⟩
          rw [hchar.2] at he
          exact List.drop_subset _ _ he

/-- A successful `convert_table` call always reports `done = true` and
`must_commit = true` (there is no flush-deadline check in its loop). -/
theorem convertTable_shape {K W : Type} {tc : TableCodec K W} {src : List EntryB}
    {input : StageInput} {cur : MutCursor} {clock : Nat → Nat}
    {out : ExecOutput} {cur' : MutCursor}
    (h : convertTable tc src input cur clock = .ok (out, cur')) :
    ∃ p, out = .progress p true true := by
  unfold convertTable at h
  cases hl : convertLoop tc (convertTableWalker src input) 0 input.stageProgress cur with
  | error er => rw [hl] at h; simp [convertTableFinish] at h
  | ok q =>
    rw [hl] at h
    simp only [convertTableFinish, Except.ok.injEq, Prod.mk.injEq] at h
    exact ⟨_, h.1.symm⟩

/-! ### Walks over well-formed block-keyed tables -/

/-- Elements surviving `dropWhile` all fail the predicate, provided the list
is sorted by a relation under which the predicate is downward closed. -/
theorem dropWhile_all_false {α : Type} (R : α → α → Prop) (p : α → Bool) :
    ∀ (l : List α), l.Pairwise R → (∀ a b, R a b → p b = true → p a = true) →
    ∀ e ∈ l.dropWhile p, p e = false := by
  intro l
  induction l with
  | nil => intro _ _ e he; simp [List.dropWhile] at he
  | cons x xs ih =>
    intro hpw hmono e he
    by_cases hx : p x = true
    · rw [List.dropWhile_cons_of_pos hx] at he
      exact ih (List.pairwise_cons.mp hpw).2 hmono e he
    · rw [List.dropWhile_cons_of_neg hx] at he
      rcases List.mem_cons.mp he with rfl | hmem
      · simpa using hx
      · by_cases hpe : p e = true
        · exact absurd (hmono x e ((List.pairwise_cons.mp hpw).1 e hmem) hpe) hx
        · simpa using hpe

/-- A well-formed block-keyed source table: sorted strictly by byte key, and
every key starts with an 8-byte big-endian block number (followed by the
32-byte hash for `Header`, `HeadersTotalDifficulty` and `BlockBody`, by
nothing for `CanonicalHeader`).  Stated through the decidable round-trip
equation on the 8-byte prefix. -/
def WfBlockKeyed (src : List EntryB) : Prop :=
  src.Pairwise (fun a b => bytesLt a.1 b.1 = true) ∧
  ∀ e ∈ src, 8 ≤ e.1.length ∧ e.1 = encBE 8 (decBE (e.1.take 8)) ++ e.1.drop 8

/-- The round-trip form of well-formedness yields the usual existential one:
the key is `encBE 8 bn ++ rest` for an in-range block number `bn`. -/
theorem wf_key_form {k : List Nat} (hlen : 8 ≤ k.length)
    (hk : k = encBE 8 (decBE (k.take 8)) ++ k.drop 8) :
    ∃ bn rest, bn < 256 ^ 8 ∧ k = encBE 8 bn ++ rest ∧ decBE (k.take 8) = bn := by
  refine ⟨decBE (k.take 8), k.drop 8, ?_, hk, rfl⟩
  have htake : k.take 8 = encBE 8 (decBE (k.take 8)) := by
    conv_lhs => rw [hk]
    exact List.take_left' (length_encBE 8 _)
  have : decBE (k.take 8) = decBE (k.take 8) % 256 ^ 8 := by
    conv_lhs => rw [htake, decBE_encBE]
  rw [this]
  exact Nat.mod_lt _ (by norm_num)

/-- Walking a well-formed block-keyed table from the seek key
`encBE 8 (p + 1)` only yields entries whose block-number component is at
least `p + 1`. -/
theorem mem_walkFrom_block_ge {src : List EntryB} (hwf : WfBlockKeyed src)
    {p : Nat} (hp : p + 1 < 256 ^ 8) :
    ∀ e ∈ walkFrom src (encBE 8 (p + 1)),
      ∃ bn rest, bn < 256 ^ 8 ∧ e.1 = encBE 8 bn ++ rest ∧ decBE (e.1.take 8) = bn ∧
        p + 1 ≤ bn := by
  intro e he
  have he' : e ∈ src.dropWhile (fun x => bytesLt x.1 (encBE 8 (p + 1))) := he
  have hfalse : bytesLt e.1 (encBE 8 (p + 1)) = false := by
    refine dropWhile_all_false (fun a b => bytesLt a.1 b.1 = true)
      (fun x => bytesLt x.1 (encBE 8 (p + 1))) src hwf.1 ?_ e he'
    intro a b hR hpb
    exact bytesLt_trans hR hpb
  have hmem : e ∈ src := (List.dropWhile_sublist _).subset he
  obtain ⟨hlen, hkeq⟩ := hwf.2 e hmem
  obtain ⟨bn, rest, hbn, hkey, hdec⟩ := wf_key_form hlen hkeq
  refine ⟨bn, rest, hbn, hkey, hdec, ?_⟩
  rw [hkey] at hfalse
  exact seek_le_of_not_bytesLt hp hfalse

/-! ## `ConvertBodies` (src/bin/akula-toolbox.rs lines 252–392) -/

/-- Model of `BodyForStorage`: `base_tx_id`, `tx_amount` and the uncles payload
(opaque for this development). -/
structure BodyForStorage where
  baseTxId : Nat
  txAmount : Nat
  uncles : List Nat
  deriving DecidableEq

/-- The RLP codecs `ConvertBodies::execute` calls into, all from the
external `rlp` crate and therefore opaque parameters here:
`rlp::decode::<BodyForStorage>`, `BodyForStorage::encode` and the
transaction round-trip `rlp::decode::<Transaction>(v)?.encode().to_vec()`. -/
structure BodyCodec where
  decodeBody : List Nat → Except ConvErr BodyForStorage
  encodeBody : BodyForStorage → List Nat
  reencodeTx : List Nat → Except ConvErr (List Nat)

/-- The transaction read performed per body entry: a fresh `walk` of the
source `BlockTransaction` table from the seek position for
`base_tx_id.encode()`, taking `tx_amount` entries
(`erigon_tx_cur.walk(Some(block_tx_base_key)).take(body.tx_amount)`). -/
def bodyTxsRead (srcTx : List EntryB) (baseTxId txAmount : Nat) : List EntryB :=
  (walkFrom srcTx (encBE 8 baseTxId)).take txAmount

/-- The inner `while let` of `ConvertBodies::execute`: for each walked body
entry decode the body, collect its transactions via `bodyTxsRead`, add
`tx_amount` to the running count and push; stop as soon as the count exceeds
500 000. -/
def extractBodies (bc : BodyCodec) (srcTx : List EntryB) :
    List EntryB → Nat →
    Except ConvErr (List (List Nat × BodyForStorage × List EntryB) × List EntryB)
  | [], _ => .ok ([], [])
  | (k, v) :: rest, accum =>
    match bc.decodeBody v with
    | .error er => .error er
    | .ok body =>
      let txs := bodyTxsRead srcTx body.baseTxId body.txAmount
      if accum + body.txAmount > 500000 then .ok ([(k, body, txs)], rest)
      else
        match extractBodies bc srcTx rest (accum + body.txAmount) with
        | .error er => .error er
        | .ok br => .ok ((k, body, txs) :: br.1, br.2)

theorem extractBodies_length {bc : BodyCodec} {srcTx : List EntryB} :
    ∀ {w : List EntryB} {accum : Nat} {batch : List (List Nat × BodyForStorage × List EntryB)}
      {rest : List EntryB},
    extractBodies bc srcTx w accum = .ok (batch, rest) →
    batch.length + rest.length = w.length := by
  intro w
  induction w with
  | nil =>
    intro accum batch rest h
    simp only [extractBodies, Except.ok.injEq, Prod.mk.injEq] at h
    rw [← h.1, ← h.2]
    simp
  | cons e w' ih =>
    intro accum batch rest h
    obtain ⟨k, v⟩ := e
    simp only [extractBodies] at h
    split at h
    · simp at h
    · split at h
      · simp only [Except.ok.injEq, Prod.mk.injEq] at h
        rw [← h.1, ← h.2]
        simp only [List.length_cons, List.length_nil]
        omega
      · split at h
        · simp at h
        · rename_i br hrec
          simp only [Except.ok.injEq, Prod.mk.injEq] at h
          have hlen : br.1.length + br.2.length = w'.length := ih (by rw [hrec])
          rw [← h.1, ← h.2]
          simp only [List.length_cons]
          omega

theorem extractBodies_rest_length {bc : BodyCodec} {srcTx : List EntryB}
    {w : List EntryB} {accum : Nat} {br : List (List Nat × BodyForStorage × List EntryB) × List EntryB}
    (h : extractBodies bc srcTx w accum = .ok br) (hne : br.1 ≠ []) :
    br.2.length < w.length := by
  have hlen : br.1.length + br.2.length = w.length := extractBodies_length (by rw [h])
  have : 0 < br.1.length := List.length_pos.mpr hne
  omega

/-- Model of `ErasedTable::<tables::BlockBody>::decode_key`: an 8-byte big-endian
block number followed by the 32-byte block hash. -/
def decodeBodyKey (k : List Nat) : Except ConvErr (Nat × List Nat) :=
  if k.length = 40 then .ok (decBE (k.take 8), k.drop 8) else .error .malformedEntry

/-- The per-transaction `map` inside the parallel step: decode and re-encode
each transaction value, keeping the source transaction key. -/
def mapTxs (bc : BodyCodec) : List EntryB → Except ConvErr (List EntryB)
  | [] => .ok []
  | (tk, tv) :: rest =>
    match bc.reencodeTx tv with
    | .error er => .error er
    | .ok t =>
      match mapTxs bc rest with
      | .error er => .error er
      | .ok r => .ok ((tk, t) :: r)

/-- The body of the `par_drain(..).map(...)` step of
`ConvertBodies::execute`: decode the body key, re-encode it, re-encode the
body value and all transactions. -/
def convertBodyEntry (bc : BodyCodec) (x : List Nat × BodyForStorage × List EntryB) :
    Except ConvErr (Nat × List Nat × List Nat × List EntryB) :=
  match decodeBodyKey x.1 with
  | .error er => .error er
  | .ok bh =>
    match mapTxs bc x.2.2 with
    | .error er => .error er
    | .ok txs => .ok (bh.1, encBE 8 bh.1 ++ bh.2, bc.encodeBody x.2.1, txs)

/-- The inner `for (index, tx) in txs` append loop of the drain. -/
def appendTxs : List EntryB → MutCursor → Except ConvErr MutCursor
  | [], c => .ok c
  | kv :: rest, c =>
    match c.append kv with
    | .error er => .error er
    | .ok c' => appendTxs rest c'

/-- The drain `for` loop of `ConvertBodies::execute`: in input order, set
`highest_block` to the entry's block number, append the body row, then
append its transaction rows. -/
def drainBodies : List (Except ConvErr (Nat × List Nat × List Nat × List EntryB)) →
    Nat → MutCursor → MutCursor → Except ConvErr (Nat × MutCursor × MutCursor)
  | [], hb, bodyCur, txCur => .ok (hb, bodyCur, txCur)
  | r :: rest, hb, bodyCur, txCur =>
    match r with
    | .error er => .error er
    | .ok q =>
      match bodyCur.append (q.2.1, q.2.2.1) with
      | .error er => .error er
      | .ok bodyCur' =>
        match appendTxs q.2.2.2 txCur with
        | .error er => .error er
        | .ok txCur' => drainBodies rest q.1 bodyCur' txCur'

/-- The outer `loop` of `ConvertBodies::execute`.  `clock t` models the
elapsed wall-clock time in milliseconds at the `Instant::now()` sample taken
after draining batch `t`; the loop breaks with `done = false` once it
exceeds 30 000 ms (`Duration::from_secs(30)`), and with `done = true` when a
batch comes back empty (source exhausted). -/
def bodiesLoop (bc : BodyCodec) (srcTx : List EntryB) (clock : Nat → Nat)
    (walker : List EntryB) (t : Nat) (highest : Nat) (bodyCur txCur : MutCursor) :
    Except ConvErr (Nat × Bool × MutCursor × MutCursor) :=
  match hx : extractBodies bc srcTx walker 0 with
  | .error er => .error er
  | .ok br =>
    if hemp : br.1 = [] then .ok (highest, true, bodyCur, txCur)
    else
      match drainBodies (br.1.map (convertBodyEntry bc)) highest bodyCur txCur with
      | .error er => .error er
      | .ok d =>
        if clock t > 30000 then .ok (d.1, false, d.2.1, d.2.2)
        else bodiesLoop bc srcTx clock br.2 (t + 1) d.1 d.2.1 d.2.2
termination_by walker.length
decreasing_by
  exact extractBodies_rest_length hx hemp

/-- The bodies walk starts at
`ErasedTable::<tables::BlockBody>::encode_seek_key(highest_block + 1)` with
`highest_block` initialised from the stage progress (default block 0). -/
def bodiesWalker (srcBodies : List EntryB) (input : StageInput) : List EntryB :=
  walkFrom srcBodies (encBE 8 (input.stageProgress.getD 0 + 1))

/-- Model of `ConvertBodies::execute`.  `srcBodies` and `srcTx` are the sorted erased
Erigon `BlockBody` and `BlockTransaction` tables; `bodyCur` and `txCur` the
target append cursors. -/
def convertBodiesExecute (bc : BodyCodec) (srcBodies srcTx : List EntryB)
    (input : StageInput) (bodyCur txCur : MutCursor) (clock : Nat → Nat) :
    Except ConvErr (ExecOutput × MutCursor × MutCursor) :=
  match bodiesLoop bc srcTx clock (bodiesWalker srcBodies input) 0
      (input.stageProgress.getD 0) bodyCur txCur with
  | .error er => .error er
  | .ok q => .ok (.progress q.1 q.2.1 true, q.2.2.1, q.2.2.2)

/-! ### Properties of `ConvertBodies` -/

theorem convertBodyEntry_eq_ok {bc : BodyCodec} {x : List Nat × BodyForStorage × List EntryB}
    {q : Nat × List Nat × List Nat × List EntryB} (h : convertBodyEntry bc x = .ok q) :
    ∃ bh txs, decodeBodyKey x.1 = .ok bh ∧ mapTxs bc x.2.2 = .ok txs ∧
      q = (bh.1, encBE 8 bh.1 ++ bh.2, bc.encodeBody x.2.1, txs) := by
  unfold convertBodyEntry at h
  cases hbh : decodeBodyKey x.1 with
  | error er => rw [hbh] at h; simp at h
  | ok bh =>
    rw [hbh] at h
    cases htxs : mapTxs bc x.2.2 with
    | error er => rw [htxs] at h; simp at h
    | ok txs =>
      rw [htxs] at h
      simp only [Except.ok.injEq] at h
      exact ⟨bh, txs, rfl, rfl, h.symm⟩

/-- Keys of an extracted bodies batch all come from walked entries. -/
theorem extractBodies_batch_keys {bc : BodyCodec} {srcTx : List EntryB} :
    ∀ {w : List EntryB} {accum : Nat}
      {batch : List (List Nat × BodyForStorage × List EntryB)} {rest : List EntryB},
    extractBodies bc srcTx w accum = .ok (batch, rest) →
    ∀ x ∈ batch, ∃ v, (x.1, v) ∈ w := by
  intro w
  induction w with
  | nil =>
    intro accum batch rest h x hx
    simp only [extractBodies, Except.ok.injEq, Prod.mk.injEq] at h
    rw [← h.1] at hx
    simp at hx
  | cons e w' ih =>
    intro accum batch rest h x hx
    obtain ⟨k, v⟩ := e
    simp only [extractBodies] at h
    split at h
    · simp at h
    · split at h
      · simp only [Except.ok.injEq, Prod.mk.injEq] at h
        rw [← h.1] at hx
        simp only [List.mem_singleton] at hx
        exact ⟨v, by rw [hx]; simp⟩
      · split at h
        · simp at h
        · rename_i br hrec
          simp only [Except.ok.injEq, Prod.mk.injEq] at h
          rw [← h.1] at hx
          rcases List.mem_cons.mp hx with rfl | hmem
          · exact ⟨v, by simp⟩
          · obtain ⟨v', hv'⟩ := ih (by rw [hrec]) x hmem
            exact ⟨v', by simp [hv']⟩

/-- The rest of the walk left by the extraction loop is part of the walk. -/
theorem extractBodies_rest_subset {bc : BodyCodec} {srcTx : List EntryB} :
    ∀ {w : List EntryB} {accum : Nat}
      {batch : List (List Nat × BodyForStorage × List EntryB)} {rest : List EntryB},
    extractBodies bc srcTx w accum = .ok (batch, rest) → rest ⊆ w := by
  intro w
  induction w with
  | nil =>
    intro accum batch rest h
    simp only [extractBodies, Except.ok.injEq, Prod.mk.injEq] at h
    rw [← h.2]
    exact fun x hx => hx
  | cons e w' ih =>
    intro accum batch rest h
    obtain ⟨k, v⟩ := e
    simp only [extractBodies] at h
    split at h
    · simp at h
    · split at h
      · simp only [Except.ok.injEq, Prod.mk.injEq] at h
        rw [← h.2]
        exact fun x hx => by simp [hx]
      · split at h
        · simp at h
        · rename_i br hrec
          simp only [Except.ok.injEq, Prod.mk.injEq] at h
          rw [← h.2]
          exact fun x hx => by simp [ih (by rw [hrec]) hx]

/-- A successful bodies drain leaves `highest_block` either untouched or at
the block number of one of the drained results. -/
theorem drainBodies_highest :
    ∀ (rs : List (Except ConvErr (Nat × List Nat × List Nat × List EntryB)))
      (hb : Nat) (bcur tcur : MutCursor) (h' : Nat) (b' t' : MutCursor),
    drainBodies rs hb bcur tcur = .ok (h', b', t') →
    h' = hb ∨ ∃ r ∈ rs, ∃ q, r = .ok q ∧ h' = q.1 := by
  intro rs
  induction rs with
  | nil =>
    intro hb bcur tcur h' b' t' h
    simp only [drainBodies, Except.ok.injEq, Prod.mk.injEq] at h
    exact Or.inl h.1.symm
  | cons r rest ih =>
    intro hb bcur tcur h' b' t' h
    cases r with
    | error er => simp [drainBodies] at h
    | ok q =>
      simp only [drainBodies] at h
      cases happ : bcur.append (q.2.1, q.2.2.1) with
      | error er => rw [happ] at h; simp at h
      | ok bcur₁ =>
        rw [happ] at h
        cases htx : appendTxs q.2.2.2 tcur with
        | error er => rw [htx] at h; simp at h
        | ok tcur₁ =>
          rw [htx] at h
          rcases ih _ _ _ _ _ _ h with h1 | ⟨r', hr', q', hq', hh⟩
          · exact Or.inr ⟨.ok q, by simp, q, rfl, h1⟩
          · exact Or.inr ⟨r', by simp [hr'], q', hq', hh⟩

/-- A successful bodies loop leaves `highest_block` either at its initial
value or at the decoded block number of some walked body entry. -/
theorem bodiesLoop_highest (bc : BodyCodec) (srcTx : List EntryB) (clock : Nat → Nat) :
    ∀ (n : Nat) (walker : List EntryB), walker.length = n →
    ∀ (t highest : Nat) (bodyCur txCur : MutCursor) (h' : Nat) (d : Bool) (b' t' : MutCursor),
    bodiesLoop bc srcTx clock walker t highest bodyCur txCur = .ok (h', d, b', t') →
    h' = highest ∨ ∃ k v, (k, v) ∈ walker ∧ ∃ bh, decodeBodyKey k = .ok bh ∧ h' = bh.1 := by
  intro n
  induction n using Nat.strong_induction_on with
  | _ n ih =>
    intro walker hlen t highest bodyCur txCur h' d b' t' h
    rw [bodiesLoop] at h
    split at h
    · simp at h
    · rename_i br hx
      split at h
      · simp only [Except.ok.injEq, Prod.mk.injEq] at h
        exact Or.inl h.1.symm
      · rename_i hemp
        split at h
        · simp at h
        · rename_i dd hdrain
          have hfromdrain : dd.1 = highest ∨
              ∃ k v, (k, v) ∈ walker ∧ ∃ bh, decodeBodyKey k = .ok bh ∧ dd.1 = bh.1 := by
            rcases drainBodies_highest _ highest bodyCur txCur dd.1 dd.2.1 dd.2.2
                (by rw [hdrain]) with h1 | ⟨r, hr, q, hq, hh⟩
            · exact Or.inl h1
            · obtain ⟨x, hxmem, hxeq⟩ := List.mem_map.mp hr
              obtain ⟨bh, txs, hbh, htxs, hqeq⟩ := convertBodyEntry_eq_ok (hxeq.trans hq)
              obtain ⟨v, hv⟩ := extractBodies_batch_keys hx x hxmem
              refine Or.inr ⟨x.1, v, hv, bh, hbh, ?_⟩
              rw [hh, hqeq]
          have hrest : br.2.length < n := by
            rw [← hlen]
            exact extractBodies_rest_length (by rw [hx]) hemp
          split at h
          · simp only [Except.ok.injEq, Prod.mk.injEq] at h
            rcases hfromdrain with h1 | ⟨k, v, hkv, bh, hbh, hh⟩
            · exact Or.inl (by rw [← h.1, h1])
            · exact Or.inr ⟨k, v, hkv, bh, hbh, by rw [← h.1, hh]⟩
          · rcases ih br.2.length hrest br.2 rfl (t + 1) dd.1 dd.2.1 dd.2.2 h' d b' t' h with
              h1 | ⟨k, v, hkv, bh, hbh, hh⟩
            · rcases hfromdrain with h2 | ⟨k, v, hkv, bh, hbh, hh⟩
              · exact Or.inl (h1.trans h2)
              · exact Or.inr ⟨k, v, hkv, bh, hbh, h1.trans hh⟩
            · exact Or.inr ⟨k, v, extractBodies_rest_subset (by rw [hx]) hkv, bh, hbh, hh⟩

/-- With the elapsed time within the 30-second deadline at every sample, a
successful bodies loop can only finish by exhausting its source, reporting
`done = true`. -/
theorem bodiesLoop_done_of_clock (bc : BodyCodec) (srcTx : List EntryB) (clock : Nat → Nat)
    (hc : ∀ k, clock k ≤ 30000) :
    ∀ (n : Nat) (walker : List EntryB), walker.length = n →
    ∀ (t highest : Nat) (bodyCur txCur : MutCursor) (h' : Nat) (d : Bool) (b' t' : MutCursor),
    bodiesLoop bc srcTx clock walker t highest bodyCur txCur = .ok (h', d, b', t') →
    d = true := by
  intro n
  induction n using Nat.strong_induction_on with
  | _ n ih =>
    intro walker hlen t highest bodyCur txCur h' d b' t' h
    rw [bodiesLoop] at h
    split at h
    · simp at h
    · rename_i br hx
      split at h
      · simp only [Except.ok.injEq, Prod.mk.injEq] at h
        exact h.2.1.symm
      · rename_i hemp
        split at h
        · simp at h
        · rename_i dd hdrain
          have hrest : br.2.length < n := by
            rw [← hlen]
            exact extractBodies_rest_length (by rw [hx]) hemp
          split at h
          · rename_i hclock
            exact absurd hclock (by simp [Nat.not_lt.mpr (hc t)])
          · exact ih br.2.length hrest br.2 rfl (t + 1) dd.1 dd.2.1 dd.2.2 h' d b' t' h

/-- A successful `ConvertBodies::execute` always reports
`must_commit = true`, and under a clock that never exceeds the 30-second
deadline also `done = true`. -/
theorem convertBodiesExecute_shape {bc : BodyCodec} {srcBodies srcTx : List EntryB}
    {input : StageInput} {bodyCur txCur : MutCursor} {clock : Nat → Nat}
    {out : ExecOutput} {b' t' : MutCursor}
    (h : convertBodiesExecute bc srcBodies srcTx input bodyCur txCur clock = .ok (out, b', t')) :
    (∃ p d, out = .progress p d true) ∧
    ((∀ k, clock k ≤ 30000) → ∃ p, out = .progress p true true) := by
  unfold convertBodiesExecute at h
  cases hl : bodiesLoop bc srcTx clock (bodiesWalker srcBodies input) 0
      (input.stageProgress.getD 0) bodyCur txCur with
  | error er => rw [hl] at h; simp at h
  | ok q =>
    rw [hl] at h
    simp only [Except.ok.injEq, Prod.mk.injEq] at h
    constructor
    · exact ⟨q.1, q.2.1, h.1.symm⟩
    · intro hc
      have hd : q.2.1 = true :=
        bodiesLoop_done_of_clock bc srcTx clock hc _ _ rfl _ _ _ _ q.1 q.2.1 q.2.2.1 q.2.2.2
          (by rw [hl])
      exact ⟨q.1, by rw [← h.1, hd]⟩

/-! ### The transaction range read per body (claim C5 support) -/

theorem bytesLt_asymm {l₁ l₂ : List Nat} (h : bytesLt l₁ l₂ = true) :
    bytesLt l₂ l₁ = false := by
  by_contra hc
  have h2 : bytesLt l₂ l₁ = true := by
    cases hb : bytesLt l₂ l₁
    · exact absurd hb hc
    · rfl
  simpa [bytesLt_irrefl] using bytesLt_trans h h2

/-- A well-formed `BlockTransaction` source table: sorted strictly by byte
key, every key the 8-byte big-endian encoding of a transaction id. -/
def WfTxKeyed (srcTx : List EntryB) : Prop :=
  srcTx.Pairwise (fun a b => bytesLt a.1 b.1 = true) ∧
  ∀ e ∈ srcTx, e.1 = encBE 8 (decBE e.1)

theorem wf_tx_key_form {k : List Nat} (hk : k = encBE 8 (decBE k)) :
    ∃ t, t < 256 ^ 8 ∧ k = encBE 8 t := by
  refine ⟨decBE k, ?_, hk⟩
  have hmod : decBE k = decBE k % 256 ^ 8 := by
    conv_lhs => rw [hk, decBE_encBE]
  rw [hmod]
  exact Nat.mod_lt _ (by norm_num)

/-- On a strictly sorted list of naturals that contains the whole range
`[base, base + m)` and nothing below `base`, the first `m` elements are
exactly that range, in order. -/
theorem take_of_sorted_range :
    ∀ (m base : Nat) (l : List Nat), l.Pairwise (· < ·) → (∀ x ∈ l, base ≤ x) →
    (∀ j, j < m → base + j ∈ l) →
    l.take m = (List.range m).map (fun j => base + j) := by
  intro m
  induction m with
  | zero => intro base l _ _ _; simp
  | succ m ih =>
    intro base l hpw hge hrange
    have hmem0 : base ∈ l := by
      have := hrange 0 (by omega)
      simpa using this
    cases l with
    | nil => simp at hmem0
    | cons x l' =>
      have hxbase : x = base := by
        have hxle : base ≤ x := hge x (by simp)
        rcases List.mem_cons.mp hmem0 with h | h
        · omega
        · have : x < base := (List.pairwise_cons.mp hpw).1 base h
          omega
      have hpw' := (List.pairwise_cons.mp hpw).2
      have hge' : ∀ y ∈ l', base + 1 ≤ y := by
        intro y hy
        have : x < y := (List.pairwise_cons.mp hpw).1 y hy
        omega
      have hrange' : ∀ j, j < m → (base + 1) + j ∈ l' := by
        intro j hj
        have hmem : base + (j + 1) ∈ x :: l' := hrange (j + 1) (by omega)
        rcases List.mem_cons.mp hmem with h | h
        · omega
        · have harith : (base + 1) + j = base + (j + 1) := by omega
          rw [harith]
          exact h
      have ihh := ih (base + 1) l' hpw' hge' hrange'
      rw [List.take_succ_cons, ihh, List.range_succ_eq_map, List.map_cons, List.map_map, hxbase]
      refine congrArg₂ List.cons (by simp) (List.map_congr_left ?_)
      intro j _
      simp only [Function.comp]
      omega

/-- On a well-formed transaction table containing the contiguous id range
`[base, base + amount)`, the per-body read `bodyTxsRead` returns exactly
`amount` entries, keyed `encBE 8 base, …, encBE 8 (base + amount - 1)` in
order. -/
theorem bodyTxsRead_range {srcTx : List EntryB} (hwf : WfTxKeyed srcTx)
    {base amount : Nat} (hbd : base + amount ≤ 256 ^ 8)
    (hrange : ∀ j, j < amount → ∃ v, (encBE 8 (base + j), v) ∈ srcTx) :
    (bodyTxsRead srcTx base amount).map Prod.fst
      = (List.range amount).map (fun j => encBE 8 (base + j)) ∧
    (bodyTxsRead srcTx base amount).length = amount := by
  unfold bodyTxsRead
  rcases Nat.eq_zero_or_pos amount with hz | hpos
  · subst hz
    simp
  have hpow : (256 : Nat) ^ 8 = 18446744073709551616 := by norm_num
  rw [hpow] at hbd
  have hbase : base < 256 ^ 8 := by rw [hpow]; omega
  have hsubw : ∀ e ∈ walkFrom srcTx (encBE 8 base), e ∈ srcTx :=
    fun e he => (List.dropWhile_sublist _).subset he
  have hpww : (walkFrom srcTx (encBE 8 base)).Pairwise (fun a b => bytesLt a.1 b.1 = true) :=
    List.Pairwise.sublist (List.dropWhile_sublist _) hwf.1
  have hform : ∀ e ∈ walkFrom srcTx (encBE 8 base), e.1 = encBE 8 (decBE e.1) :=
    fun e he => hwf.2 e (hsubw e he)
  have hgew : ∀ e ∈ walkFrom srcTx (encBE 8 base), base ≤ decBE e.1 := by
    intro e he
    have he' : e ∈ srcTx.dropWhile (fun x => bytesLt x.1 (encBE 8 base)) := he
    have hfalse : bytesLt e.1 (encBE 8 base) = false := by
      refine dropWhile_all_false (fun a b => bytesLt a.1 b.1 = true)
        (fun x => bytesLt x.1 (encBE 8 base)) srcTx hwf.1 ?_ e he'
      exact fun a b hR hpb => bytesLt_trans hR hpb
    obtain ⟨t, ht, hk⟩ := wf_tx_key_form (hform e he)
    have hfalse' : bytesLt (encBE 8 t ++ []) (encBE 8 base) = false := by
      rw [List.append_nil, ← hk]
      exact hfalse
    have hle := seek_le_of_not_bytesLt hbase hfalse'
    rw [hk, decBE_encBE, Nat.mod_eq_of_lt ht]
    exact hle
  have htids_pw : ((walkFrom srcTx (encBE 8 base)).map (fun e => decBE e.1)).Pairwise (· < ·) := by
    rw [List.pairwise_map]
    refine List.Pairwise.imp_of_mem ?_ hpww
    intro a b ha hb hR
    obtain ⟨ta, hta, hka⟩ := wf_tx_key_form (hform a ha)
    obtain ⟨tb, htb, hkb⟩ := wf_tx_key_form (hform b hb)
    rw [hka, hkb] at hR
    rw [bytesLt_iff_decBE (by simp [length_encBE]) (encBE_bytes_lt _ _)
      (encBE_bytes_lt _ _)] at hR
    rw [hka, hkb]
    exact hR
  have htids_ge : ∀ x ∈ (walkFrom srcTx (encBE 8 base)).map (fun e => decBE e.1), base ≤ x := by
    intro x hx
    obtain ⟨e, he, rfl⟩ := List.mem_map.mp hx
    exact hgew e he
  have htids_range : ∀ j, j < amount →
      base + j ∈ (walkFrom srcTx (encBE 8 base)).map (fun e => decBE e.1) := by
    intro j hj
    obtain ⟨v, hv⟩ := hrange j hj
    have hnot : bytesLt (encBE 8 (base + j)) (encBE 8 base) = false := by
      by_cases hj0 : j = 0
      · subst hj0
        simpa using bytesLt_irrefl (encBE 8 base)
      · exact bytesLt_asymm (encBE_lt_encBE (by omega) (by omega))
    have hmemw : (encBE 8 (base + j), v) ∈ walkFrom srcTx (encBE 8 base) := by
      have hsplit := List.takeWhile_append_dropWhile
        (fun x => bytesLt x.1 (encBE 8 base)) srcTx
      have hv' := hv
      rw [← hsplit] at hv'
      rcases List.mem_append.mp hv' with h | h
      · have htw := List.mem_takeWhile_imp h
        simp only at htw
        rw [hnot] at htw
        exact absurd htw (by simp)
      · exact h
    refine List.mem_map.mpr ⟨(encBE 8 (base + j), v), hmemw, ?_⟩
    simp only [decBE_encBE]
    omega
  have htake := take_of_sorted_range amount base
    ((walkFrom srcTx (encBE 8 base)).map (fun e => decBE e.1)) htids_pw htids_ge htids_range
  rw [← List.map_take] at htake
  have hkeys : ((walkFrom srcTx (encBE 8 base)).take amount).map Prod.fst
      = (List.range amount).map (fun j => encBE 8 (base + j)) := by
    have h1 : ((walkFrom srcTx (encBE 8 base)).take amount).map Prod.fst
        = ((walkFrom srcTx (encBE 8 base)).take amount).map (fun e => encBE 8 (decBE e.1)) :=
      List.map_congr_left (fun e he => hform e (List.take_subset _ _ he))
    have h2 : ((walkFrom srcTx (encBE 8 base)).take amount).map (fun e => encBE 8 (decBE e.1))
        = (((walkFrom srcTx (encBE 8 base)).take amount).map (fun e => decBE e.1)).map
            (fun t => encBE 8 t) := by
      rw [List.map_map]
      rfl
    rw [h1, h2, htake, List.map_map]
    rfl
  refine ⟨hkeys, ?_⟩
  have hlenEq := congrArg List.length hkeys
  simpa using hlenEq

theorem MutCursor.append_ok_entries {c : MutCursor} {kv : EntryB} {c' : MutCursor}
    (h : c.append kv = .ok c') : c'.entries = c.entries ++ [kv] := by
  unfold MutCursor.append at h
  split at h
  · simp only [Except.ok.injEq] at h
    rw [← h]
  · split at h
    · simp only [Except.ok.injEq] at h
      rw [← h]
    · simp at h

/-- A successful transaction-append loop appends exactly its input rows, in
order. -/
theorem appendTxs_ok_entries :
    ∀ {l : List EntryB} {c c' : MutCursor}, appendTxs l c = .ok c' →
    c'.entries = c.entries ++ l := by
  intro l
  induction l with
  | nil =>
    intro c c' h
    simp only [appendTxs, Except.ok.injEq] at h
    rw [← h]
    simp
  | cons kv rest ih =>
    intro c c' h
    simp only [appendTxs] at h
    cases happ : c.append kv with
    | error er => rw [happ] at h; simp at h
    | ok c₁ =>
      rw [happ] at h
      have h1 := MutCursor.append_ok_entries happ
      have h2 := ih h
      rw [h2, h1]
      simp

/-- Re-encoding a batch of transactions with successful codecs keeps the
keys: one output row per input transaction, same key. -/
theorem mapTxs_ok {bc : BodyCodec} :
    ∀ {txs : List EntryB}, (∀ e ∈ txs, isOkE (bc.reencodeTx e.2) = true) →
    ∃ txs', mapTxs bc txs = .ok txs' ∧ txs'.map Prod.fst = txs.map Prod.fst := by
  intro txs
  induction txs with
  | nil => exact fun _ => ⟨[], rfl, rfl⟩
  | cons e rest ih =>
    obtain ⟨tk, tv⟩ := e
    intro hok
    obtain ⟨t, ht⟩ := isOkE_iff.mp (hok (tk, tv) (by simp))
    obtain ⟨r, hr, hkeys⟩ := ih (fun x hx => hok x (by simp [hx]))
    refine ⟨(tk, t) :: r, ?_, by simp [hkeys]⟩
    simp only [mapTxs, ht, hr]

/-! ## The three `convert_table` stages

`ConvertHeaders`, `ConvertHeadersTD` and `ConvertCanonical` are generated by
the `convert_stage!` macro; their `execute` bodies all call `convert_table`
(src/bin/akula-toolbox.rs lines 213–250) and differ only in the table and
its codecs.  Value codecs come from the external `rlp` crate and stay
parametric. -/

/-- Key decoding of `ErasedTable` for tables keyed `(BlockNumber, H256)`
(`Header`, `HeadersTotalDifficulty`): the 8-byte big-endian block number
followed by the 32-byte hash. -/
def decodeKeyBlockHash (k : List Nat) : Except ConvErr (Nat × List Nat) :=
  if k.length = 40 then .ok (decBE (k.take 8), k.drop 8) else .error .malformedEntry

/-- Key decoding for `CanonicalHeader`: the bare 8-byte block number. -/
def decodeKeyBlockNum (k : List Nat) : Except ConvErr Nat :=
  if k.length = 8 then .ok (decBE k) else .error .malformedEntry

/-- The `TableCodec` of `ConvertHeaders` and `ConvertHeadersTD`:
`key_to_block_num = |(block_num, _)| Some(*block_num)`. -/
def blockHashTableCodec {W : Type} (vdec : List Nat → Except ConvErr W)
    (venc : W → List Nat) : TableCodec (Nat × List Nat) W :=
  ⟨decodeKeyBlockHash, fun key => some key.1, vdec, venc⟩

/-- The `TableCodec` of `ConvertCanonical`:
`key_to_block_num = |block_num| Some(*block_num)`. -/
def canonicalTableCodec {W : Type} (vdec : List Nat → Except ConvErr W)
    (venc : W → List Nat) : TableCodec Nat W :=
  ⟨decodeKeyBlockNum, fun key => some key, vdec, venc⟩

/-- Model of `ConvertHeaders::execute` (lines 213–224): `convert_table` on
`tables::Header`. -/
def convertHeadersExecute {W : Type} (vdec : List Nat → Except ConvErr W)
    (venc : W → List Nat) (src : List EntryB) (input : StageInput) (cur : MutCursor)
    (clock : Nat → Nat) : Except ConvErr (ExecOutput × MutCursor) :=
  convertTable (blockHashTableCodec vdec venc) src input cur clock

/-- Model of `ConvertHeadersTD::execute` (lines 239–250): `convert_table` on
`tables::HeadersTotalDifficulty`. -/
def convertHeadersTDExecute {W : Type} (vdec : List Nat → Except ConvErr W)
    (venc : W → List Nat) (src : List EntryB) (input : StageInput) (cur : MutCursor)
    (clock : Nat → Nat) : Except ConvErr (ExecOutput × MutCursor) :=
  convertTable (blockHashTableCodec vdec venc) src input cur clock

/-- Model of `ConvertCanonical::execute` (lines 226–237): `convert_table` on
`tables::CanonicalHeader`. -/
def convertCanonicalExecute {W : Type} (vdec : List Nat → Except ConvErr W)
    (venc : W → List Nat) (src : List EntryB) (input : StageInput) (cur : MutCursor)
    (clock : Nat → Nat) : Except ConvErr (ExecOutput × MutCursor) :=
  convertTable (canonicalTableCodec vdec venc) src input cur clock

theorem blockHashCodec_blockNum {W : Type} (vdec : List Nat → Except ConvErr W)
    (venc : W → List Nat) :
    ∀ k key, (blockHashTableCodec vdec venc).decodeKey k = .ok key →
      (blockHashTableCodec vdec venc).keyToBlockNum key = some (decBE (k.take 8)) := by
  intro k key h
  simp only [blockHashTableCodec, decodeKeyBlockHash] at h ⊢
  split at h
  · simp only [Except.ok.injEq] at h
    rw [← h]
  · simp at h

theorem canonicalCodec_blockNum {W : Type} (vdec : List Nat → Except ConvErr W)
    (venc : W → List Nat) :
    ∀ k key, (canonicalTableCodec vdec venc).decodeKey k = .ok key →
      (canonicalTableCodec vdec venc).keyToBlockNum key = some (decBE (k.take 8)) := by
  intro k key h
  simp only [canonicalTableCodec, decodeKeyBlockNum] at h ⊢
  split at h
  · rename_i hlen
    simp only [Except.ok.injEq] at h
    rw [← h, List.take_of_length_le (by omega)]
  · simp at h

/-- A successful run of `convert_table`, on a well-formed source, over a
codec whose block-number projection is the decoded 8-byte key prefix, never
reports a stage progress below the recorded one. -/
theorem convertTable_progress_ge {K W : Type} (tc : TableCodec K W)
    (hcodec : ∀ k key, tc.decodeKey k = .ok key →
      tc.keyToBlockNum key = some (decBE (k.take 8)))
    {src : List EntryB} (hwf : WfBlockKeyed src)
    {input : StageInput} {p : Nat} (hin : input.stageProgress = some p)
    (hp : p + 1 < 256 ^ 8)
    {cur : MutCursor} {clock : Nat → Nat} {out : ExecOutput} {cur' : MutCursor}
    (h : convertTable tc src input cur clock = .ok (out, cur')) :
    ∃ sp, out = .progress sp true true ∧ p ≤ sp := by
  unfold convertTable at h
  cases hl : convertLoop tc (convertTableWalker src input) 0 input.stageProgress cur with
  | error er => rw [hl] at h; simp [convertTableFinish] at h
  | ok q =>
    rw [hl] at h
    simp only [convertTableFinish, Except.ok.injEq, Prod.mk.injEq] at h
    have hwalker : convertTableWalker src input = walkFrom src (encBE 8 (p + 1)) := by
      unfold convertTableWalker
      rw [hin]
      rfl
    rcases convertLoop_highest tc _ _ rfl _ _ _ q.1 q.2 (by rw [hl]) with
      h1 | ⟨e, he, key, hkey, b, hbn, hhb⟩
    · refine ⟨p, ?_, le_refl p⟩
      rw [← h.1, h1, hin]
      rfl
    · rw [hwalker] at he
      obtain ⟨bn, rest, hbnlt, hkeyform, hdec, hge⟩ := mem_walkFrom_block_ge hwf hp e he
      have hb : b = bn := by
        have := hcodec e.1 key hkey
        rw [this] at hbn
        simp only [Option.some.injEq] at hbn
        rw [← hbn, hdec]
      refine ⟨b, ?_, by omega⟩
      rw [← h.1, hhb]
      rfl

theorem decodeBodyKey_blockNum {k : List Nat} {bh : Nat × List Nat}
    (h : decodeBodyKey k = .ok bh) : bh.1 = decBE (k.take 8) := by
  unfold decodeBodyKey at h
  split at h
  · simp only [Except.ok.injEq] at h
    rw [← h]
  · simp at h

/-- A successful run of `ConvertBodies::execute` on a well-formed source
never reports a stage progress below the recorded one. -/
theorem convertBodies_progress_ge (bc : BodyCodec) {srcBodies srcTx : List EntryB}
    (hwf : WfBlockKeyed srcBodies)
    {input : StageInput} {p : Nat} (hin : input.stageProgress = some p)
    (hp : p + 1 < 256 ^ 8)
    {bodyCur txCur : MutCursor} {clock : Nat → Nat} {out : ExecOutput} {b' t' : MutCursor}
    (h : convertBodiesExecute bc srcBodies srcTx input bodyCur txCur clock = .ok (out, b', t')) :
    ∃ sp d, out = .progress sp d true ∧ p ≤ sp := by
  unfold convertBodiesExecute at h
  cases hl : bodiesLoop bc srcTx clock (bodiesWalker srcBodies input) 0
      (input.stageProgress.getD 0) bodyCur txCur with
  | error er => rw [hl] at h; simp at h
  | ok q =>
    rw [hl] at h
    simp only [Except.ok.injEq, Prod.mk.injEq] at h
    have hwalker : bodiesWalker srcBodies input = walkFrom srcBodies (encBE 8 (p + 1)) := by
      unfold bodiesWalker
      rw [hin]
      rfl
    have hinit : input.stageProgress.getD 0 = p := by rw [hin]; rfl
    rcases bodiesLoop_highest bc srcTx clock _ _ rfl _ _ _ _ q.1 q.2.1 q.2.2.1 q.2.2.2
        (by rw [hl]) with h1 | ⟨k, v, hkv, bh, hbh, hh⟩
    · refine ⟨p, q.2.1, ?_, le_refl p⟩
      rw [← h.1, h1, hinit]
    · rw [hwalker] at hkv
      obtain ⟨bn, rest, hbnlt, hkeyform, hdec, hge⟩ := mem_walkFrom_block_ge hwf hp (k, v) hkv
      have hb : bh.1 = bn := by
        rw [decodeBodyKey_blockNum hbh]
        exact hdec
      refine ⟨q.1, q.2.1, ?_, ?_⟩
      · rw [← h.1]
      · rw [hh, hb]
        omega

/-! ### Batch size accounting (claim C4 support) -/

/-- The total `tx_amount` of a batch of extracted bodies
(the `accum_txs` the extraction loop tracks). -/
def sumTxAmounts (batch : List (List Nat × BodyForStorage × List EntryB)) : Nat :=
  (batch.map (fun x => x.2.1.txAmount)).sum

/-- Invariant of the bodies extraction loop: on entry with a running count
within the 500 000 budget, all but the final pushed body fit in the
budget. -/
theorem extractBodies_dropLast_sum {bc : BodyCodec} {srcTx : List EntryB} :
    ∀ {w : List EntryB} {accum : Nat}
      {batch : List (List Nat × BodyForStorage × List EntryB)} {rest : List EntryB},
    extractBodies bc srcTx w accum = .ok (batch, rest) → accum ≤ 500000 →
    accum + sumTxAmounts batch.dropLast ≤ 500000 := by
  intro w
  induction w with
  | nil =>
    intro accum batch rest h hacc
    simp only [extractBodies, Except.ok.injEq, Prod.mk.injEq] at h
    rw [← h.1]
    simpa [sumTxAmounts] using hacc
  | cons e w' ih =>
    intro accum batch rest h hacc
    obtain ⟨k, v⟩ := e
    simp only [extractBodies] at h
    split at h
    · simp at h
    · rename_i body hdec
      split at h
      · simp only [Except.ok.injEq, Prod.mk.injEq] at h
        rw [← h.1]
        simpa [sumTxAmounts, List.dropLast_single] using hacc
      · rename_i hfits
        split at h
        · simp at h
        · rename_i br hrec
          simp only [Except.ok.injEq, Prod.mk.injEq] at h
          have hih : accum + body.txAmount + sumTxAmounts br.1.dropLast ≤ 500000 :=
            ih (by rw [hrec]) (by omega)
          rw [← h.1]
          cases hbr : br.1 with
          | nil => simpa [sumTxAmounts, List.dropLast_single] using hacc
          | cons y ys =>
            rw [List.dropLast_cons₂]
            rw [hbr] at hih
            simp only [sumTxAmounts, List.map_cons, List.sum_cons] at hih ⊢
            omega

/-- With transaction-less bodies, the extraction loop never stops early: the
whole remaining walk is accumulated into one batch. -/
theorem extractBodies_zero_tx {bc : BodyCodec} {srcTx : List EntryB}
    (hz : ∀ v, ∃ b, bc.decodeBody v = .ok b ∧ b.txAmount = 0) :
    ∀ (w : List EntryB) (accum : Nat), accum ≤ 500000 →
    ∃ batch, extractBodies bc srcTx w accum = .ok (batch, []) ∧ batch.length = w.length := by
  intro w
  induction w with
  | nil => exact fun accum _ => ⟨[], rfl, rfl⟩
  | cons e rest ih =>
    intro accum hacc
    obtain ⟨k, v⟩ := e
    obtain ⟨b, hb, hb0⟩ := hz v
    obtain ⟨batch', hrec, hlen⟩ := ih (accum + b.txAmount) (by omega)
    refine ⟨(k, b, bodyTxsRead srcTx b.baseTxId b.txAmount) :: batch', ?_, by simp [hlen]⟩
    simp only [extractBodies, hb]
    rw [if_neg (by omega), hrec]

/-! ## Unwind bodies and the terminating stage -/

/-- Outcome of a Rust call that may panic instead of returning. -/
inductive Ret (α : Type)
  | ok (a : α)
  | panicked
  deriving DecidableEq

/-- The `unwind` implementation generated by the `convert_stage!` macro for
`ConvertHeaders`, `ConvertHeadersTD` and `ConvertCanonical`
(src/bin/akula-toolbox.rs lines 129–135): its body is `todo!()`, which
panics unconditionally. -/
def convertStageUnwind (_input : UnwindInput) : Ret Unit := .panicked

/-- Model of `ConvertBodies::unwind` (src/bin/akula-toolbox.rs lines 386–391): also
`todo!()`. -/
def convertBodiesUnwind (_input : UnwindInput) : Ret Unit := .panicked

/-- What a stage's `execute` call can do to the engine: return an
`ExecOutput`, or terminate the entire process. -/
inductive ExecOutcome
  | returned (out : ExecOutput)
  | processExit (code : Nat)
  deriving DecidableEq

def ExecOutcome.isReturned : ExecOutcome → Bool
  | .returned _ => true
  | .processExit _ => false

/-- Model of `TerminatingStage::execute` (src/bin/akula-toolbox.rs lines 408–413):
its body is `std::process::exit(0)` — the process terminates with code 0 and
no `ExecOutput` is ever handed back to the engine. -/
def terminatingStageExecute (_input : StageInput) : ExecOutcome := .processExit 0

/-- Model of `TerminatingStage::unwind` (lines 414–419): returns `Ok(())`. -/
def terminatingStageUnwind (_input : UnwindInput) : Ret Unit := .ok ()

/-! ## Ethash header verification (src/consensus/ethash/mod.rs) and
engine parameter collection (src/models/chainspec.rs) -/

/-- The fields of `BlockHeader` read by `Ethash::verify_header`.  `U256`
values are modelled as `Nat`, `ommers_hash` as its 32 raw bytes. -/
structure BlockHeader where
  number : Nat
  timestamp : Nat
  difficulty : Nat
  ommersHash : List Nat
  deriving DecidableEq

/-- Constant `EMPTY_LIST_HASH`: keccak-256 of the RLP empty list, the ommers hash of
an uncle-free block. -/
def emptyListHash : List Nat :=
  [0x1d, 0xcc, 0x4d, 0xe8, 0xde, 0xc7, 0x5d, 0x7a, 0xab, 0x85, 0xb5, 0x67,
   0xb6, 0xcc, 0xd4, 0x1a, 0xd3, 0x12, 0x45, 0x1b, 0x94, 0x8a, 0x74, 0x13,
   0xf0, 0xa1, 0x42, 0xfd, 0x40, 0xd4, 0x93, 0x47]

/-- Model of `DifficultyBomb`: the `delays` `BTreeMap`, modelled as its ascending
association list. -/
structure DifficultyBomb where
  delays : List (Nat × Nat)
  deriving DecidableEq

structure BlockDifficultyBomb where
  delayTo : Nat
  deriving DecidableEq

structure BlockEthashParams where
  durationLimit : Nat
  blockReward : Nat
  homesteadFormula : Bool
  byzantiumAdjFactor : Bool
  difficultyBomb : Option BlockDifficultyBomb
  deriving DecidableEq

/-- The `Ethash` consensus engine configuration
(src/consensus/ethash/mod.rs lines 10–17).  `block_reward` is a `BTreeMap`,
modelled as its ascending association list. -/
structure Ethash where
  durationLimit : Nat
  blockReward : List (Nat × Nat)
  homesteadFormula : Option Nat
  byzantiumAdjFactor : Option Nat
  difficultyBomb : Option DifficultyBomb
  deriving DecidableEq

/-- The reverse `BTreeMap` scan `for (after, v) in map.iter().rev() { if
number >= after { x = v; break } }` with default `0`, applied to the
descending entry list. -/
def revLookup (desc : List (Nat × Nat)) (number : Nat) : Nat :=
  match desc with
  | [] => 0
  | (after, v) :: rest => if number ≥ after then v else revLookup rest number

/-- The per-block parameter computation written inline in
`Ethash::verify_header` (src/consensus/ethash/mod.rs lines 32–65). -/
def ethashBlockParams (self : Ethash) (number : Nat) : BlockEthashParams :=
  { durationLimit := self.durationLimit
    blockReward := revLookup self.blockReward.reverse number
    homesteadFormula :=
      (self.homesteadFormula.map (fun after => decide (number ≥ after))).getD false
    byzantiumAdjFactor :=
      (self.byzantiumAdjFactor.map (fun after => decide (number ≥ after))).getD false
    difficultyBomb := self.difficultyBomb.map
      (fun db => ⟨revLookup db.delays.reverse number⟩) }

inductive ValidationError
  | wrongDifficulty (expected : Nat) (got : Nat)
  deriving DecidableEq

/-- Model of `Ethash::verify_header` (src/consensus/ethash/mod.rs lines 27–98).
`cd` is `difficulty::canonical_difficulty`; the `difficulty` submodule is
not among the sources under review, so it stays an opaque parameter.  Its
arguments are, in order: `header.number`, `header.timestamp`,
`parent.difficulty`, `parent.timestamp`, `parent_has_uncles`, and the
per-block parameters. -/
def verifyHeader (cd : Nat → Nat → Nat → Nat → Bool → BlockEthashParams → Nat)
    (self : Ethash) (header parent : BlockHeader) : Except ValidationError Unit :=
  let blockParams := ethashBlockParams self header.number
  let parentHasUncles := decide (parent.ommersHash ≠ emptyListHash)
  let difficulty := cd header.number header.timestamp parent.difficulty parent.timestamp
    parentHasUncles blockParams
  if difficulty ≠ header.difficulty then
    .error (.wrongDifficulty difficulty header.difficulty)
  else
    .ok ()

structure CliqueGenesis where
  vanity : List Nat
  signers : List (List Nat)
  deriving DecidableEq

structure EthashGenesis where
  nonce : List Nat
  mixHash : List Nat
  deriving DecidableEq

/-- Model of `Engine` from src/models/chainspec.rs lines 151–182. -/
inductive Engine
  | clique (period : Nat) (epoch : Nat) (genesis : CliqueGenesis)
  | ethash (durationLimit : Nat) (blockReward : List (Nat × Nat))
      (homesteadFormula : Option Nat) (byzantiumAdjFactor : Option Nat)
      (difficultyBomb : Option DifficultyBomb) (genesis : EthashGenesis)
  | noProof
  deriving DecidableEq

/-- Model of `BlockEngineParams` from src/models/chainspec.rs lines 144–148. -/
inductive BlockEngineParams
  | clique (period : Nat) (epoch : Nat)
  | ethash (params : BlockEthashParams)
  | noProof
  deriving DecidableEq

/-- Model of `Engine::collect_params_for_block` (src/models/chainspec.rs lines
185–236).  The `Engine::NoProof` arm is `todo!()`, hence the `Ret`
outcome. -/
def collectParamsForBlock (e : Engine) (blockNumber : Nat) : Ret BlockEngineParams :=
  match e with
  | .clique period epoch _ => .ok (.clique period epoch)
  | .ethash durationLimit blockReward homesteadFormula byzantiumAdjFactor difficultyBomb _ =>
    .ok (.ethash
      { durationLimit := durationLimit
        blockReward := revLookup blockReward.reverse blockNumber
        homesteadFormula :=
          (homesteadFormula.map (fun after => decide (blockNumber ≥ after))).getD false
        byzantiumAdjFactor :=
          (byzantiumAdjFactor.map (fun after => decide (blockNumber ≥ after))).getD false
        difficultyBomb := difficultyBomb.map
          (fun db => ⟨revLookup db.delays.reverse blockNumber⟩) })
  | .noProof => .panicked

/-- The argument tuple that `Ethash::verify_header` passes to
`difficulty::canonical_difficulty`: header number and timestamp, parent
difficulty and timestamp, whether the parent has uncles
(`parent.ommers_hash != EMPTY_LIST_HASH`), and the per-block parameters. -/
def canonicalDiffOf (cd : Nat → Nat → Nat → Nat → Bool → BlockEthashParams → Nat)
    (self : Ethash) (header parent : BlockHeader) : Nat :=
  cd header.number header.timestamp parent.difficulty parent.timestamp
    (decide (parent.ommersHash ≠ emptyListHash)) (ethashBlockParams self header.number)

/-! ## Claims -/

/-- Claim C2 (code bug): the claim asserts that every convert stage's
`unwind` completes successfully and prunes block-keyed entries above the
target height; in the code all four convert stages' `unwind` bodies are
`todo!()`, which panics unconditionally — evaluated here at the concrete
unwind input `{ stage_progress := 1000, unwind_to := 500 }` and at every
other input. -/
theorem C2_unwind_panics : ∀ input : UnwindInput,
    convertStageUnwind input = .panicked ∧ convertBodiesUnwind input = .panicked :=
  fun _ => ⟨rfl, rfl⟩

/-- Claim C8 counterexample: `TerminatingStage::execute` does not return an
`ExecOutput` to the engine — at the concrete input
`{ previous_stage := none, stage_progress := none }` it terminates the
process instead. -/
theorem C8_counterexample :
    (terminatingStageExecute ⟨none, none⟩).isReturned = false := rfl

/-- Claim C8 (amended): `TerminatingStage::execute` never returns: for every
input it terminates the whole process via `std::process::exit(0)`, so no
`ExecOutput` reaches the engine and no further commit happens after it. -/
theorem C8_exits_process : ∀ input : StageInput,
    terminatingStageExecute input = .processExit 0 :=
  fun _ => rfl

/-- Claim C9: `Ethash::verify_header` fails exactly when the canonical
difficulty computed from the header number and timestamp, the parent
difficulty and timestamp, the parent-has-uncles flag and the per-block
parameters differs from `header.difficulty`; the only error it produces is
`WrongDifficulty` with that computed value as `expected` and
`header.difficulty` as `got`, and it performs no other validation
(succeeding whenever the difficulty matches). -/
theorem C9_verify_header_iff :
    ∀ (cd : Nat → Nat → Nat → Nat → Bool → BlockEthashParams → Nat)
      (self : Ethash) (header parent : BlockHeader),
    (verifyHeader cd self header parent = .ok () ↔
      canonicalDiffOf cd self header parent = header.difficulty) ∧
    (∀ e, verifyHeader cd self header parent = .error e ↔
      (canonicalDiffOf cd self header parent ≠ header.difficulty ∧
        e = .wrongDifficulty (canonicalDiffOf cd self header parent) header.difficulty)) := by
  intro cd self header parent
  constructor
  · simp only [verifyHeader, canonicalDiffOf]
    split
    · rename_i hne
      exact iff_of_false (by simp) hne
    · rename_i hne
      exact iff_of_true rfl (not_not.mp hne)
  · intro e
    simp only [verifyHeader, canonicalDiffOf]
    split
    · rename_i hne
      constructor
      · intro h
        simp only [Except.error.injEq] at h
        exact ⟨hne, h.symm⟩
      · rintro ⟨-, rfl⟩
        rfl
    · rename_i hne
      refine iff_of_false (by simp) ?_
      rintro ⟨hd, -⟩
      exact hd (not_not.mp hne)

/-- Claim C10: for every Ethash configuration and block number, the
per-block parameters computed inline by `Ethash::verify_header`
(`ethashBlockParams`) coincide with what `Engine::collect_params_for_block`
produces on an `Engine::Ethash` with the same fields. -/
theorem C10_params_agree :
    ∀ (durationLimit : Nat) (blockReward : List (Nat × Nat))
      (homesteadFormula byzantiumAdjFactor : Option Nat)
      (difficultyBomb : Option DifficultyBomb) (genesis : EthashGenesis) (n : Nat),
    collectParamsForBlock
        (.ethash durationLimit blockReward homesteadFormula byzantiumAdjFactor
          difficultyBomb genesis) n =
      .ok (.ethash (ethashBlockParams
        ⟨durationLimit, blockReward, homesteadFormula, byzantiumAdjFactor, difficultyBomb⟩ n)) := by
  intro durationLimit blockReward homesteadFormula byzantiumAdjFactor difficultyBomb genesis n
  rfl

/-- Claim C3: in `convert_table`, when the source walk yields entries in
strictly increasing key order (all converting successfully and all above the
target cursor's last key), the parallel decode/re-encode step preserves the
input order and the entries are appended to the target cursor in exactly
source order — the whole call succeeds, so no append fails with
`OutOfOrderAppend`. -/
theorem C3_order_preserved {K W : Type} (tc : TableCodec K W) (src : List EntryB)
    (input : StageInput) (cur : MutCursor) (clock : Nat → Nat)
    (hpw : (convertTableWalker src input).Pairwise (fun a b => bytesLt a.1 b.1 = true))
    (hok : ∀ e ∈ convertTableWalker src input, isOkE (convertEntry tc e) = true)
    (hbelow : belowAll cur.lastKey ((convertTableWalker src input).map Prod.fst) = true) :
    ∃ out cur' tail, convertTable tc src input cur clock = .ok (out, cur') ∧
      cur'.entries = cur.entries ++ tail ∧
      tail.map Prod.fst = (convertTableWalker src input).map Prod.fst := by
  obtain ⟨hb', tail, hloop, hkeys⟩ :=
    convertLoop_ok tc (convertTableWalker src input).length (convertTableWalker src input)
      rfl 0 input.stageProgress cur hok hpw hbelow
  refine ⟨.progress (hb'.getD ((input.previousStage.map Prod.snd).getD 0)) true true,
    ⟨cur.entries ++ tail⟩, tail, ?_, rfl, hkeys⟩
  unfold convertTable
  rw [hloop]
  rfl

/-- Witness for C3 at a concrete two-entry `Header`-style source feeding an
empty target cursor. -/
theorem C3_witness :
    ∃ out cur' tail,
      convertTable (blockHashTableCodec (fun v => .ok v) (fun v => v))
          [(encBE 8 1 ++ List.replicate 32 0, [7]), (encBE 8 2 ++ List.replicate 32 0, [9])]
          ⟨none, none⟩ ⟨[]⟩ (fun _ => 0) = .ok (out, cur') ∧
      cur'.entries = (MutCursor.mk []).entries ++ tail ∧
      tail.map Prod.fst =
        (convertTableWalker
          [(encBE 8 1 ++ List.replicate 32 0, [7]), (encBE 8 2 ++ List.replicate 32 0, [9])]
          ⟨none, none⟩).map Prod.fst :=
  C3_order_preserved (blockHashTableCodec (fun v => .ok v) (fun v => v))
    [(encBE 8 1 ++ List.replicate 32 0, [7]), (encBE 8 2 ++ List.replicate 32 0, [9])]
    ⟨none, none⟩ ⟨[]⟩ (fun _ => 0) (by decide) (by decide) (by decide)

/-- Claim C4 (amended): for the `convert_table` stages each in-memory batch
holds at most 500 000 entries; `ConvertBodies`, however, batches by
transaction count — bodies are accumulated until the running `tx_amount`
total exceeds 500 000, so all but the final body of a batch fit in that
budget, while the number of body entries per batch is unbounded (see the
counterexample). -/
theorem C4_batch_bounds :
    (∀ (w : List EntryB) (i : Nat), (extractBatch w i).1.length ≤ 500000) ∧
    (∀ (bc : BodyCodec) (srcTx w : List EntryB)
      (batch : List (List Nat × BodyForStorage × List EntryB)) (rest : List EntryB),
      extractBodies bc srcTx w 0 = .ok (batch, rest) →
      sumTxAmounts batch.dropLast ≤ 500000) := by
  constructor
  · intro w i
    rw [(extractBatch_take_drop w i).1, List.length_take]
    have hm : i % 500000 < 500000 := Nat.mod_lt _ (by norm_num)
    omega
  · intro bc srcTx w batch rest h
    have := extractBodies_dropLast_sum h (by norm_num)
    omega

/-- Witness for C4 at a one-body source whose body carries 5 transactions. -/
theorem C4_witness :
    sumTxAmounts ([([], ⟨0, 5, []⟩, [])] :
      List (List Nat × BodyForStorage × List EntryB)).dropLast ≤ 500000 :=
  C4_batch_bounds.2 ⟨fun _ => .ok ⟨0, 5, []⟩, fun _ => [], fun v => .ok v⟩ [] [([], [])]
    [([], ⟨0, 5, []⟩, [])] [] (by rfl)

def c4Codec : BodyCodec := ⟨fun _ => .ok ⟨0, 0, []⟩, fun _ => [], fun v => .ok v⟩

def c4Src : List EntryB := List.replicate 500001 ([], [])

/-- The number of body entries held in the batch an extraction produced. -/
def batchLenOf
    (r : Except ConvErr (List (List Nat × BodyForStorage × List EntryB) × List EntryB)) :
    Nat :=
  match r with
  | .ok br => br.1.length
  | .error _ => 0

def c4BatchLen : Nat := batchLenOf (extractBodies c4Codec [] c4Src 0)

/-- Counterexample for C4 as stated: a `ConvertBodies::execute` call over
500 001 transaction-less bodies accumulates all 500 001 entries into a
single in-memory batch before anything is written, exceeding the claimed
≈500 000-entry cap — the batching counts transactions, not entries. -/
theorem C4_counterexample :
    c4Src.length = 500001 ∧ c4BatchLen = 500001 ∧ 500000 < c4BatchLen := by
  obtain ⟨batch, heq, hlen⟩ :=
    @extractBodies_zero_tx c4Codec []
      (fun _ => ⟨⟨0, 0, []⟩, rfl, rfl⟩) c4Src 0 (by norm_num)
  have hbl : c4BatchLen = batchLenOf (Except.ok (batch, [])) := congrArg batchLenOf heq
  have hbl' : batchLenOf (Except.ok (batch, [])) = batch.length := rfl
  have hsl : c4Src.length = 500001 := List.length_replicate _ _
  refine ⟨hsl, ?_, ?_⟩ <;> omega

/-- Claim C5: for each processed body `(base_tx_id, tx_amount)`, on a
well-formed source `BlockTransaction` table that contains the contiguous id
range `[base_tx_id, base_tx_id + tx_amount)`, the stage reads exactly
`tx_amount` transaction entries starting at the seek position for
`base_tx_id` — their keys are `encBE 8 base_tx_id … encBE 8
(base_tx_id + tx_amount - 1)`, contiguous and in order — and the conversion
step produces exactly one re-encoded row per read transaction, under the
same keys (which the drain then appends). -/
theorem C5_tx_range (srcTx : List EntryB) (hwf : WfTxKeyed srcTx) (base amount : Nat)
    (hbd : base + amount ≤ 256 ^ 8)
    (hrange : ∀ j, j < amount → ∃ v, (encBE 8 (base + j), v) ∈ srcTx)
    (bc : BodyCodec)
    (hok : ∀ e ∈ bodyTxsRead srcTx base amount, isOkE (bc.reencodeTx e.2) = true) :
    (bodyTxsRead srcTx base amount).length = amount ∧
    (bodyTxsRead srcTx base amount).map Prod.fst
      = (List.range amount).map (fun j => encBE 8 (base + j)) ∧
    ∃ txs', mapTxs bc (bodyTxsRead srcTx base amount) = .ok txs' ∧
      txs'.map Prod.fst = (bodyTxsRead srcTx base amount).map Prod.fst ∧
      ∀ (txCur t' : MutCursor), appendTxs txs' txCur = .ok t' →
        t'.entries = txCur.entries ++ txs' := by
  obtain ⟨hkeys, hlen⟩ := bodyTxsRead_range hwf hbd hrange
  obtain ⟨txs', htxs', hkeys'⟩ := mapTxs_ok hok
  exact ⟨hlen, hkeys, txs', htxs', hkeys', fun _ _ h => appendTxs_ok_entries h⟩

/-- Witness for C5 at a concrete two-transaction range `[5, 7)`. -/
theorem C5_witness :
    (bodyTxsRead [(encBE 8 5, [1]), (encBE 8 6, [2])] 5 2).length = 2 ∧
    (bodyTxsRead [(encBE 8 5, [1]), (encBE 8 6, [2])] 5 2).map Prod.fst
      = (List.range 2).map (fun j => encBE 8 (5 + j)) ∧
    ∃ txs', mapTxs ⟨fun _ => .ok ⟨0, 0, []⟩, fun _ => [], fun v => .ok v⟩
        (bodyTxsRead [(encBE 8 5, [1]), (encBE 8 6, [2])] 5 2) = .ok txs' ∧
      txs'.map Prod.fst
        = (bodyTxsRead [(encBE 8 5, [1]), (encBE 8 6, [2])] 5 2).map Prod.fst ∧
      ∀ (txCur t' : MutCursor), appendTxs txs' txCur = .ok t' →
        t'.entries = txCur.entries ++ txs' :=
  C5_tx_range [(encBE 8 5, [1]), (encBE 8 6, [2])] ⟨by decide, by decide⟩ 5 2 (by norm_num)
    (by
      intro j hj
      interval_cases j
      · exact ⟨[1], by simp⟩
      · exact ⟨[2], by simp⟩)
    ⟨fun _ => .ok ⟨0, 0, []⟩, fun _ => [], fun v => .ok v⟩
    (fun _ _ => rfl)

/-- Claim C6: for every convert stage running over a well-formed source with
a recorded progress `p`, the `stage_progress` a successful `execute` returns
is at least `p` — the checkpoint never decreases absent an explicit
unwind. -/
theorem C6_progress_monotone :
    (∀ (W : Type) (vdec : List Nat → Except ConvErr W) (venc : W → List Nat)
       (src : List EntryB) (input : StageInput) (p : Nat) (cur : MutCursor)
       (clock : Nat → Nat) (out : ExecOutput) (cur' : MutCursor),
       input.stageProgress = some p → p + 1 < 256 ^ 8 → WfBlockKeyed src →
       convertHeadersExecute vdec venc src input cur clock = .ok (out, cur') →
       ∃ sp, out = .progress sp true true ∧ p ≤ sp) ∧
    (∀ (W : Type) (vdec : List Nat → Except ConvErr W) (venc : W → List Nat)
       (src : List EntryB) (input : StageInput) (p : Nat) (cur : MutCursor)
       (clock : Nat → Nat) (out : ExecOutput) (cur' : MutCursor),
       input.stageProgress = some p → p + 1 < 256 ^ 8 → WfBlockKeyed src →
       convertHeadersTDExecute vdec venc src input cur clock = .ok (out, cur') →
       ∃ sp, out = .progress sp true true ∧ p ≤ sp) ∧
    (∀ (W : Type) (vdec : List Nat → Except ConvErr W) (venc : W → List Nat)
       (src : List EntryB) (input : StageInput) (p : Nat) (cur : MutCursor)
       (clock : Nat → Nat) (out : ExecOutput) (cur' : MutCursor),
       input.stageProgress = some p → p + 1 < 256 ^ 8 → WfBlockKeyed src →
       convertCanonicalExecute vdec venc src input cur clock = .ok (out, cur') →
       ∃ sp, out = .progress sp true true ∧ p ≤ sp) ∧
    (∀ (bc : BodyCodec) (srcBodies srcTx : List EntryB) (input : StageInput) (p : Nat)
       (bodyCur txCur : MutCursor) (clock : Nat → Nat) (out : ExecOutput) (b' t' : MutCursor),
       input.stageProgress = some p → p + 1 < 256 ^ 8 → WfBlockKeyed srcBodies →
       convertBodiesExecute bc srcBodies srcTx input bodyCur txCur clock = .ok (out, b', t') →
       ∃ sp d, out = .progress sp d true ∧ p ≤ sp) := by
  refine ⟨?_, ?_, ?_, ?_⟩
  · intro W vdec venc src input p cur clock out cur' hin hp hwf h
    exact convertTable_progress_ge _ (blockHashCodec_blockNum vdec venc) hwf hin hp h
  · intro W vdec venc src input p cur clock out cur' hin hp hwf h
    exact convertTable_progress_ge _ (blockHashCodec_blockNum vdec venc) hwf hin hp h
  · intro W vdec venc src input p cur clock out cur' hin hp hwf h
    exact convertTable_progress_ge _ (canonicalCodec_blockNum vdec venc) hwf hin hp h
  · intro bc srcBodies srcTx input p bodyCur txCur clock out b' t' hin hp hwf h
    exact convertBodies_progress_ge bc hwf hin hp h

/-- Witness for C6: `ConvertHeaders` on an exhausted source with recorded
progress 3 reports progress 3 again. -/
theorem C6_witness :
    ∃ sp, ExecOutput.progress 3 true true = ExecOutput.progress sp true true ∧ 3 ≤ sp :=
  C6_progress_monotone.1 (List Nat) (fun v => .ok v) (fun v => v) [] ⟨none, some 3⟩ 3
    ⟨[]⟩ (fun _ => 0) (.progress 3 true true) ⟨[]⟩ rfl (by norm_num) ⟨by decide, by decide⟩
    (by simp [convertHeadersExecute, convertTable, convertTableFinish, convertLoop,
      convertTableWalker, walkFrom, extractBatch])

/-- Claim C7: every convert stage begins its source walk at the seek key
encoding block `progress + 1` (block 1 when no progress is recorded), and on
a well-formed source every walked entry's block-number component exceeds the
recorded progress — entries at or below it are never re-read. -/
theorem C7_walk_start :
    (∀ (src : List EntryB) (input : StageInput), WfBlockKeyed src →
       input.stageProgress.getD 0 + 1 < 256 ^ 8 →
       convertTableWalker src input
         = walkFrom src (encBE 8 (input.stageProgress.getD 0 + 1)) ∧
       ∀ e ∈ convertTableWalker src input,
         input.stageProgress.getD 0 + 1 ≤ decBE (e.1.take 8)) ∧
    (∀ (srcBodies : List EntryB) (input : StageInput), WfBlockKeyed srcBodies →
       input.stageProgress.getD 0 + 1 < 256 ^ 8 →
       bodiesWalker srcBodies input
         = walkFrom srcBodies (encBE 8 (input.stageProgress.getD 0 + 1)) ∧
       ∀ e ∈ bodiesWalker srcBodies input,
         input.stageProgress.getD 0 + 1 ≤ decBE (e.1.take 8)) := by
  constructor
  · intro src input hwf hp
    refine ⟨rfl, ?_⟩
    intro e he
    obtain ⟨bn, rest, hbnlt, hkey, hdec, hge⟩ :=
      mem_walkFrom_block_ge hwf hp e he
    rw [hdec]
    exact hge
  · intro srcBodies input hwf hp
    refine ⟨rfl, ?_⟩
    intro e he
    obtain ⟨bn, rest, hbnlt, hkey, hdec, hge⟩ :=
      mem_walkFrom_block_ge hwf hp e he
    rw [hdec]
    exact hge

/-- Witness for C7 at a one-entry source with block 4 and recorded
progress 3. -/
theorem C7_witness :
    convertTableWalker [(encBE 8 4 ++ List.replicate 32 0, [])] ⟨none, some 3⟩
      = walkFrom [(encBE 8 4 ++ List.replicate 32 0, [])]
          (encBE 8 ((⟨none, some 3⟩ : StageInput).stageProgress.getD 0 + 1)) ∧
    ∀ e ∈ convertTableWalker [(encBE 8 4 ++ List.replicate 32 0, [])] ⟨none, some 3⟩,
      (⟨none, some 3⟩ : StageInput).stageProgress.getD 0 + 1 ≤ decBE (e.1.take 8) :=
  C7_walk_start.1 [(encBE 8 4 ++ List.replicate 32 0, [])] ⟨none, some 3⟩
    ⟨by decide, by decide⟩ (by norm_num)

/-- Claim C1 (amended): only `ConvertBodies::execute` enforces the
≈30-second flush deadline — it always reports `must_commit = true`, and when
the elapsed time stays within the deadline at every sample a successful call
can only return by exhausting its source, with `done = true`.  The three
`convert_table` stages (`ConvertHeaders`, `ConvertHeadersTD`,
`ConvertCanonical`) never consult the clock: a successful `execute` always
drains the source to exhaustion and returns `done = true` and
`must_commit = true` regardless of elapsed time. -/
theorem C1_loop_exit :
    (∀ (K W : Type) (tc : TableCodec K W) (src : List EntryB) (input : StageInput)
       (cur : MutCursor) (clock : Nat → Nat) (out : ExecOutput) (cur' : MutCursor),
       convertTable tc src input cur clock = .ok (out, cur') →
       ∃ p, out = .progress p true true) ∧
    (∀ (bc : BodyCodec) (srcBodies srcTx : List EntryB) (input : StageInput)
       (bodyCur txCur : MutCursor) (clock : Nat → Nat) (out : ExecOutput) (b' t' : MutCursor),
       convertBodiesExecute bc srcBodies srcTx input bodyCur txCur clock = .ok (out, b', t') →
       (∃ p d, out = .progress p d true) ∧
       ((∀ k, clock k ≤ 30000) → ∃ p, out = .progress p true true)) :=
  ⟨fun _ _ _ _ _ _ _ _ _ h => convertTable_shape h,
   fun _ _ _ _ _ _ _ _ _ _ h => convertBodiesExecute_shape h⟩

/-- Witness for C1 at a `ConvertBodies` run over an exhausted source under a
clock that never reaches the deadline. -/
theorem C1_witness :
    (∃ p d, ExecOutput.progress 0 true true = .progress p d true) ∧
    ((∀ k, (fun _ : Nat => 0) k ≤ 30000) →
      ∃ p, ExecOutput.progress 0 true true = .progress p true true) :=
  C1_loop_exit.2 ⟨fun _ => .ok ⟨0, 0, []⟩, fun _ => [], fun v => .ok v⟩ [] [] ⟨none, none⟩
    ⟨[]⟩ ⟨[]⟩ (fun _ => 0) (.progress 0 true true) ⟨[]⟩ ⟨[]⟩
    (by simp [convertBodiesExecute, bodiesLoop, bodiesWalker, walkFrom, extractBodies])

def c1Src : List EntryB :=
  (List.range 500001).map (fun j => (encBE 8 (j + 1) ++ List.replicate 32 0, []))

def c1Input : StageInput := ⟨none, none⟩

def c1Clock : Nat → Nat := fun _ => 31000

def c1DoneOf : Except ConvErr (ExecOutput × MutCursor) → Option Bool
  | .ok (.progress _ d _, _) => some d
  | _ => none

/-- Counterexample for C1 as stated: a `ConvertHeaders::execute` call over a
500 001-block source, with 31 s already elapsed when the first 500 000-entry
batch has been drained (and one entry still unread, so the source is not
exhausted), does not return `Progress{done:false, must_commit:true}` as the
claim requires — `convert_table` has no deadline check, so the call keeps
going and returns `done = true` after draining everything. -/
theorem C1_counterexample :
    c1Src.length = 500001 ∧
    (extractBatch (convertTableWalker c1Src c1Input) 0).2.1.length = 1 ∧
    30000 < c1Clock 0 ∧
    c1DoneOf (convertHeadersExecute (fun v => (.ok v : Except ConvErr (List Nat)))
      (fun v => v) c1Src c1Input ⟨[]⟩ c1Clock) = some true := by
  have hslen : c1Src.length = 500001 := by
    show ((List.range 500001).map _).length = 500001
    rw [List.length_map, List.length_range]
  have hsrc : c1Src = (encBE 8 (0 + 1) ++ List.replicate 32 0, ([] : List Nat)) ::
      (List.map (fun j => ((encBE 8 (j + 1) ++ List.replicate 32 0, ([] : List Nat)) : EntryB))
        (List.map Nat.succ (List.range 500000))) := by
    show (List.range 500001).map _ = _
    rw [show (500001 : Nat) = 500000 + 1 from rfl, List.range_succ_eq_map, List.map_cons]
  have hwalker : convertTableWalker c1Src c1Input = c1Src := by
    show walkFrom c1Src (encBE 8 1) = c1Src
    rw [hsrc]
    exact List.dropWhile_cons_of_neg
      (by simpa using bytesLt_append_self (encBE 8 1) (List.replicate 32 0))
  have hpw : c1Src.Pairwise (fun a b => bytesLt a.1 b.1 = true) := by
    show ((List.range 500001).map _).Pairwise _
    rw [List.pairwise_map]
    refine List.Pairwise.imp_of_mem ?_ (List.pairwise_lt_range 500001)
    intro a b ha hb hab
    have hb' : b < 500001 := List.mem_range.mp hb
    refine bytesLt_append_of_lt (by simp [length_encBE]) ?_ _ _
    refine encBE_lt_encBE (by omega) ?_
    have hpow : (256 : Nat) ^ 8 = 18446744073709551616 := by norm_num
    omega
  have hok : ∀ e ∈ c1Src, isOkE (convertEntry
      (blockHashTableCodec (fun v => (.ok v : Except ConvErr (List Nat))) (fun v => v)) e)
        = true := by
    intro e he
    have he' : e ∈ (List.range 500001).map
        (fun j => ((encBE 8 (j + 1) ++ List.replicate 32 0, ([] : List Nat)) : EntryB)) := he
    obtain ⟨j, hj, rfl⟩ := List.mem_map.mp he'
    simp [convertEntry, blockHashTableCodec, decodeKeyBlockHash, length_encBE, isOkE]
  have hbelow : belowAll (MutCursor.mk []).lastKey (c1Src.map Prod.fst) = true := rfl
  obtain ⟨hb', tail, hloop, hkeys⟩ :=
    convertLoop_ok (blockHashTableCodec (fun v => (.ok v : Except ConvErr (List Nat)))
      (fun v => v)) c1Src.length c1Src rfl 0 c1Input.stageProgress ⟨[]⟩ hok hpw hbelow
  refine ⟨hslen, ?_, by norm_num [c1Clock], ?_⟩
  · rw [hwalker, (extractBatch_take_drop c1Src 0).2, List.length_drop, hslen]
  · show c1DoneOf (convertTable (blockHashTableCodec _ _) c1Src c1Input ⟨[]⟩ c1Clock)
      = some true
    have h3 := congrArg
      (fun w => convertTableFinish c1Input
        (convertLoop (blockHashTableCodec (fun v => (.ok v : Except ConvErr (List Nat)))
          (fun v => v)) w 0 c1Input.stageProgress ⟨[]⟩)) hwalker
    have h2 := congrArg (convertTableFinish c1Input) hloop
    exact (congrArg c1DoneOf (h3.trans h2)).trans rfl

end AkulaModel
